import Mathlib

/-!
Verification of the beachbums seating/grouping engine
(persons.py, tables.py, seating_plan.py, group_plan.py).

Shallow-embedding conventions:
* Python `Person` equality compares a derived `_unique_name` of the form
  `name + "_" + str(hash(name))`; `str` of an int never contains an
  underscore, so two unique names agree exactly when the names agree, and
  persons are keyed by their name throughout this development.
* Python floats occurring in the weight computations are modelled as exact
  rationals.
* Python dicts preserve insertion order; they are modelled as lists.
-/

namespace Beachbums

/-- Pairing-count state over all persons, keyed by name (see the header).
`cnt a b` is the number of times the person named `a` has recorded sitting
with the person named `b` (persons.py, `Person.pair_counts`, a
`defaultdict(int)`; only the stored values are modelled here, key insertion
by mere lookup is modelled separately for the frame-effect claim). -/
structure World where
  names : List String
  cnt : String → String → Nat

/-- Fresh world: the persons named by `ns` exist and no pairings are
recorded yet (`pair_counts` starts as an empty `defaultdict(int)`). -/
def initWorld (ns : List String) : World := ⟨ns, fun _ _ => 0⟩

/-- One-sided count update: `self.pair_counts[other_person] += 1`
(persons.py line 186). -/
def bumpCnt (self other : String) (w : World) : World :=
  { w with cnt := fun a b => if a = self ∧ b = other then w.cnt a b + 1 else w.cnt a b }

/-- Model of `Person.add_pair(other_person, reciprocate=False)`
(persons.py lines 174-190): the self-pairing guard, then one bump. -/
def addPairOneSide (self other : String) (w : World) : World :=
  if self = other then w else bumpCnt self other w

/-- Model of `Person.add_pair(other_person, reciprocate=True)` (persons.py
lines 174-190): returns the state unchanged when `self == other`, otherwise
bumps `self`'s count for `other` and then performs the non-reciprocating
call `other_person.add_pair(self, reciprocate=False)`. -/
def addPairW (self other : String) (w : World) : World :=
  if self = other then w else addPairOneSide other self (bumpCnt self other w)

/-- Model of `Person.add_persons` (persons.py lines 164-172): add_pair with
reciprocation for each listed person, in list order. -/
def addPersonsW (self : String) (others : List String) (w : World) : World :=
  others.foldl (fun w2 o => addPairW self o w2) w

/-- One call to either of the two public pairing mutators. -/
inductive PairOp where
  | pair (self other : String)
  | persons (self : String) (others : List String)

/-- Apply one mutator call to the world. -/
def applyPairOp (w : World) : PairOp → World
  | .pair a b => addPairW a b w
  | .persons a bs => addPersonsW a bs w

/-- Apply a call sequence of pairing mutators, first call first. -/
def applyPairOps (ops : List PairOp) (w : World) : World :=
  ops.foldl applyPairOp w

/-- Symmetry of the recorded pairing counts. -/
def SymmCnt (w : World) : Prop := ∀ a b, w.cnt a b = w.cnt b a

/-- Insert a missing member name into the world with a warning, as the
history processor does (seating_plan.py lines 35-41): a name already in
`persons` is left alone, an unknown name is added as a new minimal person
and a warning is emitted for it.  The state is (world, warnings so far). -/
def ensurePerson (wa : World × List String) (n : String) : World × List String :=
  if n ∈ wa.1.names then wa
  else ({ wa.1 with names := wa.1.names ++ [n] }, wa.2 ++ [n])

/-- Pair every member of the list with every other member, as the while/pop
loop of process_previous_pairings does (seating_plan.py lines 45-47).
Python pops the last member and calls add_persons on the remaining prefix;
this function traverses the reversed member list instead, pairing each
popped member with the members popped after it.  The multiset of add_pair
calls is identical; only the call order differs, and the recorded counts
are order-independent. -/
def pairTableRev : List String → World → World
  | [], w => w
  | p :: rest, w => pairTableRev rest (addPersonsW p rest w)

/-- Add one row (group label, member name) to the per-label grouping
accumulated so far: append the member to its label's group, or open a new
group for a fresh label. -/
def insertRow (acc : List (String × List String)) (lbl n : String) :
    List (String × List String) :=
  if acc.any (fun g => g.1 == lbl) then
    acc.map (fun g => if g.1 = lbl then (g.1, g.2 ++ [n]) else g)
  else acc ++ [(lbl, [n])]

/-- Group the rows (group label, member name) of one history frame by
label, labels in first-occurrence order, members in row order.  pandas
groupby emits the groups in sorted label order instead; the per-label
member lists are identical, and the group processing order affects neither
counts nor which persons get synthesized. -/
def groupRows (plan : List (String × String)) : List (String × List String) :=
  plan.foldl (fun acc r => insertRow acc r.1 r.2) []

/-- Process one table of one history frame (seating_plan.py lines 32-47):
synthesize missing persons with warnings, then record all pairings. -/
def processTable (wa : World × List String) (members : List String) :
    World × List String :=
  let wa1 := members.foldl ensurePerson wa
  (pairTableRev members.reverse wa1.1, wa1.2)

/-- Model of process_previous_pairings (seating_plan.py lines 19-47),
returning the updated world and the names that were warned about. -/
def processPreviousPairings (plans : List (List (String × String)))
    (w : World) : World × List String :=
  plans.foldl
    (fun wa plan => (groupRows plan).foldl (fun wa2 g => processTable wa2 g.2) wa)
    (w, [])

/-- Number of groups across all history frames in which both `a` and `b`
appear as members. -/
def sharedGroupCount (plans : List (List (String × String))) (a b : String) : Nat :=
  (plans.map (fun plan =>
    ((groupRows plan).map (fun g => if a ∈ g.2 ∧ b ∈ g.2 then 1 else 0)).sum)).sum

/-- One person's pairing-count dictionary viewed on its own: the keys in
insertion order together with the stored counts (persons.py,
`self.pair_counts`, a `defaultdict(int)` keyed by Person and hence by
name). -/
structure PCPerson where
  name : String
  pairKeys : List String
  pairVal : String → Nat

/-- Model of Person.get_pair_count_for_person (persons.py lines 205-206):
a bare defaultdict lookup, which inserts the key with count 0 when it is
absent and returns the stored count otherwise. -/
def getPairCountForPerson (self : PCPerson) (other : String) : Nat × PCPerson :=
  if other ∈ self.pairKeys then (self.pairVal other, self)
  else (0, { self with
    pairKeys := self.pairKeys ++ [other]
    pairVal := fun n => if n = other then 0 else self.pairVal n })

/-- Model of Person.get_pairs (persons.py lines 199-200): the current key
view of the pairing dictionary. -/
def getPairs (self : PCPerson) : List String := self.pairKeys

/-- Model of get_pair_count_for_everyone_except (persons.py lines 215-225):
the currently known keys minus the excluded ones, with their counts.  The
inner get_pair_count_for_person calls hit existing keys only, so this read
performs no insertion. -/
def getPairCountForEveryoneExcept (self : PCPerson) (excl : List String) :
    List String × List Nat :=
  let ks := self.pairKeys.filter (fun k => k ∉ excl)
  (ks, ks.map self.pairVal)

/-- The cell writes create_adjacency_matrix performs (persons.py lines
41-56): one write per (person, known pairing key) with the stored count. -/
def adjacencyWrites (persons : List PCPerson) : List (String × String × Nat) :=
  (persons.map (fun p => p.pairKeys.map (fun k => (p.name, k, p.pairVal k)))).flatten

/-- The fields of a Person that enter Python `__hash__` (persons.py lines
143-150).  `backgrounds` and `props` enter via their `str()` rendering,
kept abstract here. -/
structure HashedPerson where
  name : String
  group : Option String
  backgroundsStr : String
  exclude : Bool
  propsStr : String

/-- Model of Person.__eq__ (persons.py lines 140-141): `_unique_name`
comparison, which reduces to name comparison (see the file header). -/
def personEqPy (a b : HashedPerson) : Bool := a.name == b.name

/-- Model of Person.__hash__ (persons.py lines 143-150): the sum of the
interpreter hashes of name, group, str(backgrounds), exclude and
str(props).  `hs`, `hNone` and `hb` abstract the process's hash values for
strings, None and bools. -/
def personHashPy (hs : String → Int) (hNone : Int) (hb : Bool → Int)
    (p : HashedPerson) : Int :=
  hs p.name + (match p.group with | none => hNone | some g => hs g)
    + hs p.backgroundsStr + hb p.exclude + hs p.propsStr

/-- A concrete, explicit stand-in for the interpreter's string hash, used
to exhibit the hash inconsistency at one explicit input. -/
def demoStrHash (s : String) : Int := s.length

/-- Person entity (persons.py Person).  `pairCounts` holds the historical
pairing counts keyed by the other person's name; `backgrounds` holds the
numeric skill scores.  Machine floats are modelled as exact rationals. -/
structure Person where
  name : String
  group : Option String
  backgrounds : List (String × Rat)
  preferred : List String
  exclude : Bool
  pairCounts : String → Nat

/-- Table entity (tables.py lines 14-58). -/
structure Table where
  name : String
  capacity : Nat
  people : List Person

/-- tables.py line 26: number of seated people. -/
def Table.seated (t : Table) : Nat := t.people.length

/-- tables.py line 30. -/
def Table.hasSpace (t : Table) : Bool := t.seated < t.capacity

/-- tables.py line 34. -/
def Table.isFull (t : Table) : Bool := !t.hasSpace

/-- Step 1 of create_seating_plan (seating_plan.py lines 105-109): drop
the excluded people from the working roster. -/
def activeRoster (roster : List Person) : List Person :=
  roster.filter (fun p => !p.exclude)

/-- One bucket of _randomize_group (seating_plan.py lines 112-128): the
active people carrying the given GROUP value, stably sorted by descending
preference-set size.  The pandas shuffle that precedes the stable sort is
modelled by quantifying over the input roster order: every seed produces
some input order, and every order within a key class is reachable. -/
def randomizeGroup (active : List Person) (g : String) : List Person :=
  List.insertionSort (fun p q => q.preferred.length ≤ p.preferred.length)
    (active.filter (fun p => p.group == some g))

/-- Step 6 (seating_plan.py line 131): tables stably sorted by ascending
capacity. -/
def sortTables (tables : List Table) : List Table :=
  List.insertionSort (fun t u => t.capacity ≤ u.capacity) tables

/-- Step 11 (seating_plan.py line 154): the total seat count. -/
def totalSeats (tables : List Table) : Nat := (tables.map Table.capacity).sum

/-- Membership test for the four GROUP values create_seating_plan buckets
people into; an active person with any other GROUP value belongs to no
bucket and is never seated. -/
def isFourGroup (p : Person) : Bool :=
  p.group == some "TA" || p.group == some "FACULTY" ||
    p.group == some "STUDENT" || p.group == some "GUEST"

/-- The engine state: the tables (in sorted order) and the names recorded
as seated (people_table_placement entries that are not -1). -/
structure SeatState where
  tables : List Table
  placed : List String

/-- A fatal error of create_seating_plan, carrying the message and the
table/placement state at the moment of the raise.  The Python messages
interpolate run data; constant message prefixes are used here. -/
structure SeatErr where
  msg : String
  tables : List Table
  placed : List String

def notEnoughSeatsMsg : String := "Not enough seats for all people!"

def couldNotAddMsg : String := "Could not add TA to table"

def keyErrorPreferredMsg : String := "KeyError: preferred name not in persons"

def zeroDivisionMsg : String := "ZeroDivisionError: division by zero"

def minEmptyMsg : String := "ValueError: min() arg is an empty sequence"

def tableFullMsg : String := "Table is full."

def alreadySeatedMsg : String := "Person already seated."

def noTableMsg : String := "Could not add person to any table"

def couldNotSeatEveryoneMsg : String := "Could not seat everyone!"

def facultyImbalanceMsg : String :=
  "Some tables have more than one faculty and some tables have no faculty."

/-- Dict lookup `table_options[table_name]`: the first (unique) table with
that name. -/
def findTable (ts : List Table) (tname : String) : Option Table :=
  ts.find? (fun t => t.name == tname)

/-- Append a person to the people of the first table with the given name,
modelling `Table.add_person` (tables.py lines 36-45) called on the shared
table object; the caller has already checked has_space, so the full-table
raise inside add_person is unreachable. -/
def addToTables : List Table → String → Person → List Table
  | [], _, _ => []
  | t :: rest, tname, p =>
    if t.name = tname then { t with people := t.people ++ [p] } :: rest
    else t :: addToTables rest tname p

/-- Model of _add_person_to_table_generic (seating_plan.py lines 359-384):
seat the person when the table has space and the person is not yet placed;
return whether seating happened.  A lookup of a table name that does not
exist would be a Python KeyError; all call sites pass names of existing
tables, and the model returns failure there. -/
def addPersonToTable (st : SeatState) (tname : String) (p : Person) :
    Bool × SeatState :=
  match findTable st.tables tname with
  | none => (false, st)
  | some t =>
    if t.hasSpace ∧ p.name ∉ st.placed then
      (true, { tables := addToTables st.tables tname p,
               placed := st.placed ++ [p.name] })
    else (false, st)

/-- Set-insert into an insertion-ordered name list (Python set.add). -/
def insertName (n : String) (l : List String) : List String :=
  if n ∈ l then l else l ++ [n]

/-- Add `src` to the preferred set of the person named `target`. -/
def addPrefTo (roster : List Person) (target src : String) : List Person :=
  roster.map (fun q =>
    if q.name = target then { q with preferred := insertName src q.preferred } else q)

def rosterHas (roster : List Person) (n : String) : Bool :=
  roster.any (fun p => p.name == n)

/-- One person's turn of the mutual-preference closure (seating_plan.py
lines 185-188): every name in the person's current preferred set gains the
person's name; a preferred name with no `persons` entry is the KeyError of
`persons[person_name]`.  The `if len(p.preferred)` guard is immaterial: an
empty preferred set makes the inner loop a no-op either way. -/
def closeStep (roster : List Person) (pname : String) : Except String (List Person) :=
  match roster.find? (fun p => p.name == pname) with
  | none => Except.ok roster
  | some p =>
    p.preferred.foldlM
      (fun r t =>
        if rosterHas r t then Except.ok (addPrefTo r t pname)
        else Except.error keyErrorPreferredMsg)
      roster

/-- Step 14.1 (seating_plan.py lines 185-188): the sequential mutual
preference closure over all persons, excluded ones included. -/
def closePreferred (roster : List Person) : Except String (List Person) :=
  (roster.map Person.name).foldlM closeStep roster

/-- The closed version of a person, found by name. -/
def updFrom (closed : List Person) (p : Person) : Person :=
  (closed.find? (fun q => q.name == p.name)).getD p

/-- The preference test of seating_plan.py lines 216-220.  The third
Python disjunct `person.preferred in option.preferred` asks whether the
frozenset copy of person.preferred is an element of option.preferred, a
set of strings: it is always false and is dropped here. -/
def prefMatch (person : Person) (occ : Person) : Bool :=
  occ.preferred.contains person.name || person.preferred.contains occ.name

/-- First-occurrence deduplication by name, modelling the dict
comprehension of get_pair_count_for_people (persons.py lines 208-213),
whose keys are Persons compared by name. -/
def dedupByNameAux (seen : List String) : List Person → List Person
  | [] => []
  | p :: rest =>
    if p.name ∈ seen then dedupByNameAux seen rest
    else p :: dedupByNameAux (p.name :: seen) rest

def dedupByName (l : List Person) : List Person := dedupByNameAux [] l

/-- The counts list after the faculty scaling loop of seating_plan.py
lines 230-236: when the person is FACULTY, each FACULTY occupant's count
becomes 100 when it was 0 and is multiplied by 100 otherwise. -/
def scaledCounts (person : Person) (options : List Person) : List Nat :=
  if person.group == some "FACULTY" then
    options.map (fun o =>
      if o.group == some "FACULTY" then
        (if person.pairCounts o.name = 0 then 100 else person.pairCounts o.name * 100)
      else person.pairCounts o.name)
  else options.map (fun o => person.pairCounts o.name)

/-- The per-table weight of seating_plan.py lines 210-240, following the
code's shape: -1 with break on a preference match, else a 0 placeholder;
the counts then pass the faculty scaling; a nonnegative placeholder is
replaced by occupied/capacity + sum(counts)/len(options).  `none` models
the ZeroDivisionError raised when a non-full table has no occupants
(`sum([]) / len([])`). -/
def tableWeightCode (person : Person) (t : Table) : Option Rat :=
  let options := dedupByName t.people
  let w0 : Rat := if options.any (fun o => prefMatch person o) then -1 else 0
  let counts := scaledCounts person options
  if 0 ≤ w0 then
    if options.length = 0 then none
    else some ((t.seated : Rat) / (t.capacity : Rat)
      + ((counts.sum : Rat) / (options.length : Rat)))
  else some w0

/-- The weight dictionary of one queue iteration, in table order, full
tables skipped; `none` propagates the ZeroDivisionError. -/
def weightsForAux (person : Person) : List Table → Option (List (String × Rat))
  | [] => some []
  | t :: ts =>
    if t.isFull then weightsForAux person ts
    else
      match tableWeightCode person t with
      | none => none
      | some w => (weightsForAux person ts).map (fun l => (t.name, w) :: l)

def weightsFor (st : SeatState) (person : Person) : Option (List (String × Rat)) :=
  weightsForAux person st.tables

/-- Python `min(table_weight, key=table_weight.get)`: the first entry of
minimum value wins; a later entry replaces the current best only when
strictly smaller. -/
def argminAux (best : String × Rat) : List (String × Rat) → String × Rat
  | [] => best
  | y :: rest => if y.2 < best.2 then argminAux y rest else argminAux best rest

def argminFirst : List (String × Rat) → String × Rat
  | [] => ("", 0)
  | x :: rest => argminAux x rest

/-- The first entry of the weight list carrying the given value. -/
def firstWithVal (l : List (String × Rat)) (v : Rat) : Option (String × Rat) :=
  l.find? (fun x => x.2 == v)

/-- One iteration of step 15 (seating_plan.py lines 208-257): weight every
non-full table, pick the first table of minimum weight, seat the person
there; empty weight dict is the ValueError of min(); a failed add raises
the three-way diagnostic of lines 252-257. -/
def choosePerson (st : SeatState) (person : Person) : Except SeatErr SeatState :=
  match weightsFor st person with
  | none => Except.error ⟨zeroDivisionMsg, st.tables, st.placed⟩
  | some [] => Except.error ⟨minEmptyMsg, st.tables, st.placed⟩
  | some (x :: rest) =>
    let minName := (argminAux x rest).1
    let res := addPersonToTable st minName person
    if res.1 then Except.ok res.2
    else
      match findTable st.tables minName with
      | some t =>
        if t.isFull then Except.error ⟨tableFullMsg, st.tables, st.placed⟩
        else if person.name ∈ st.placed then
          Except.error ⟨alreadySeatedMsg, st.tables, st.placed⟩
        else Except.error ⟨noTableMsg, st.tables, st.placed⟩
      | none => Except.error ⟨noTableMsg, st.tables, st.placed⟩

/-- Step 13 (seating_plan.py lines 173-179): seat one TA per table along
the zip of sorted tables with the TA bucket; a failed add is fatal. -/
def seatTAs (st : SeatState) : List (String × Person) → Except SeatErr SeatState
  | [] => Except.ok st
  | (tname, ta) :: rest =>
    let res := addPersonToTable st tname ta
    if res.1 then seatTAs res.2 rest
    else Except.error ⟨couldNotAddMsg, st.tables, st.placed⟩

/-- Number of FACULTY members seated at the table (seating_plan.py lines
285-289). -/
def facultyCount (t : Table) : Nat :=
  (t.people.filter (fun p => p.group == some "FACULTY")).length

/-- Number of TA members seated at the table. -/
def taCount (t : Table) : Nat :=
  (t.people.filter (fun p => p.group == some "TA")).length

/-- The TA bucket after the closure (seating_plan.py line 125, objects
shared with the closure of line 185). -/
def taListOf (roster closed : List Person) : List Person :=
  (randomizeGroup (activeRoster roster) "TA").map (updFrom closed)

/-- The FACULTY bucket after the closure (line 127). -/
def facListOf (roster closed : List Person) : List Person :=
  (randomizeGroup (activeRoster roster) "FACULTY").map (updFrom closed)

/-- The STUDENT bucket after the closure (line 126). -/
def stuListOf (roster closed : List Person) : List Person :=
  (randomizeGroup (activeRoster roster) "STUDENT").map (updFrom closed)

/-- The GUEST bucket after the closure (line 128). -/
def gueListOf (roster closed : List Person) : List Person :=
  (randomizeGroup (activeRoster roster) "GUEST").map (updFrom closed)

/-- Python line 155: the size of the union dict of the four buckets,
which is the sum of the bucket sizes for a duplicate-free roster. -/
def unseatedCount0 (roster : List Person) : Nat :=
  (randomizeGroup (activeRoster roster) "TA").length
    + (randomizeGroup (activeRoster roster) "FACULTY").length
    + (randomizeGroup (activeRoster roster) "STUDENT").length
    + (randomizeGroup (activeRoster roster) "GUEST").length

/-- Step 12 (lines 165-170): the TAs that get a table in step 13. -/
def taSeatOf (roster : List Person) (tables : List Table)
    (closed : List Person) : List Person :=
  if (sortTables tables).length < (taListOf roster closed).length then
    (taListOf roster closed).take (sortTables tables).length
  else taListOf roster closed

/-- Step 12 (lines 165-170): the TAs beyond the table count, pulled out
of the TA bucket and seated later like anyone else. -/
def extraTasOf (roster : List Person) (tables : List Table)
    (closed : List Person) : List Person :=
  if (sortTables tables).length < (taListOf roster closed).length then
    (taListOf roster closed).drop (sortTables tables).length
  else []

/-- The unseated dict right after step 13 (line 133 union minus the TAs
popped while seating): extra TAs first, then faculty, students, guests. -/
def unseated1Of (roster : List Person) (tables : List Table)
    (closed : List Person) : List Person :=
  extraTasOf roster tables closed ++ facListOf roster closed
    ++ stuListOf roster closed ++ gueListOf roster closed

/-- The step 15 processing queue (lines 181-207): people with preferences
first (in unseated order), then the preference-free remainder of the
faculty, guest, student and extra-TA buckets. -/
def queueOf (roster : List Person) (tables : List Table)
    (closed : List Person) : List Person :=
  (unseated1Of roster tables closed).filter (fun p => !p.preferred.isEmpty)
    ++ (facListOf roster closed).filter (fun p => p.preferred.isEmpty)
    ++ (gueListOf roster closed).filter (fun p => p.preferred.isEmpty)
    ++ (stuListOf roster closed).filter (fun p => p.preferred.isEmpty)
    ++ (extraTasOf roster tables closed).filter (fun p => p.preferred.isEmpty)

/-- Model of create_seating_plan (seating_plan.py lines 50-340), up to the
returned assignment; saving the dataframe is out of scope.  Differences of
sequencing forced by the pure embedding, both behaviour-preserving:
the preference closure (Python step 14.1) is applied before TA seating so
that the seated Person values already carry the closed preference sets
that Python's shared mutable objects carry by the time weights are read;
consequently a closure KeyError fires before a TA-seating failure rather
than after, both being fatal errors.  The round-robin loop of lines
267-281 iterates the just-recomputed unseated collection, which is empty
whenever it is reached (a non-empty one raised on line 265), so it is a
no-op and is not modelled further.  The Python dicts assume one roster
entry per name; theorems carry a no-duplicate-names hypothesis where that
matters. -/
def createSeatingPlan (roster : List Person) (tables : List Table) :
    Except SeatErr SeatState :=
  if totalSeats (sortTables tables) < unseatedCount0 roster then
    Except.error ⟨notEnoughSeatsMsg, sortTables tables, []⟩
  else
    match closePreferred roster with
    | Except.error m => Except.error ⟨m, sortTables tables, []⟩
    | Except.ok closed =>
      match seatTAs ⟨sortTables tables, []⟩
          (((sortTables tables).map Table.name).zip (taSeatOf roster tables closed)) with
      | Except.error e => Except.error e
      | Except.ok st1 =>
        match (queueOf roster tables closed).foldlM choosePerson st1 with
        | Except.error e => Except.error e
        | Except.ok st2 =>
          if ((unseated1Of roster tables closed).filter
              (fun p => !st2.placed.contains p.name)).isEmpty then
            if (st2.tables.filter (fun t => decide (1 < facultyCount t))).isEmpty
                || (st2.tables.filter (fun t => facultyCount t == 0)).isEmpty then
              Except.ok st2
            else Except.error ⟨facultyImbalanceMsg, st2.tables, st2.placed⟩
          else Except.error ⟨couldNotSeatEveryoneMsg, st2.tables, st2.placed⟩

/-- All occupant names across the tables, in table order. -/
def occupantNames (ts : List Table) : List String :=
  (ts.map (fun t => t.people.map Person.name)).flatten

/-- Total number of occupants across the tables. -/
def totalOccupancy (ts : List Table) : Nat := (ts.map Table.seated).sum

/-- How many seats across all tables hold a person of the given name. -/
def seatCountAt (ts : List Table) (n : String) : Nat :=
  (occupantNames ts).count n

/-- The scaled pairing count of one occupant, as the specification words
it: a senior (FACULTY) person weighting a senior occupant sees the count
set to 100 when it was 0 and multiplied by 100 otherwise. -/
def specScaledCount (person : Person) (occ : Person) : Nat :=
  if person.group == some "FACULTY" && occ.group == some "FACULTY" then
    (if person.pairCounts occ.name = 0 then 100 else person.pairCounts occ.name * 100)
  else person.pairCounts occ.name

/-- The weight formula exactly as claim C2 words it: -1 when some current
occupant is preference-matched with the person, otherwise
occupied/capacity plus the scaled pairing-count sum divided by the
occupant count. -/
def specWeight (person : Person) (t : Table) : Rat :=
  if t.people.any (fun o => prefMatch person o) then -1
  else (t.seated : Rat) / (t.capacity : Rat)
    + (((t.people.map (specScaledCount person)).sum : Rat) / (t.people.length : Rat))

/-- A minimal person record for concrete runs: no backgrounds, no
preferences, not excluded, no pairing history. -/
def mkPerson (n : String) (g : Option String) : Person :=
  ⟨n, g, [], [], false, fun _ => 0⟩

/-- A fresh empty table. -/
def mkTable (n : String) (cap : Nat) : Table := ⟨n, cap, []⟩

/-- A human-readable tag of a run's outcome: "ok" or the error message. -/
def seatResultTag : Except SeatErr SeatState → String
  | Except.ok _ => "ok"
  | Except.error e => e.msg

/-- The engine-state invariant: no table over capacity, the multiset of
occupant names matches the placement record, and nobody is placed twice. -/
def SeatInv (st : SeatState) : Prop :=
  (∀ t ∈ st.tables, t.seated ≤ t.capacity)
  ∧ (occupantNames st.tables).Perm st.placed
  ∧ st.placed.Nodup

/-- The fields of a person that the preference closure leaves untouched. -/
def personShape (p : Person) : String × Option String × Bool :=
  (p.name, p.group, p.exclude)

/-- C4 counterexample fixture: one TA and one active person of an
unknown GROUP, one table of capacity one. -/
def c4ExRoster : List Person :=
  [mkPerson "Thabo" (some "TA"), mkPerson "Xola" (some "OTHER")]

def c4ExTables : List Table := [mkTable "t1" 1]

/-- C4 witness fixture: a TA and a student against a single seat. -/
def c4WRoster : List Person :=
  [mkPerson "Tim" (some "TA"), mkPerson "Stan" (some "STUDENT")]

def c4WTables : List Table := [mkTable "t1" 1]

/-- C1 counterexample fixture: a TA and an active person of an unknown
GROUP against one table of capacity two. -/
def c1ExRoster : List Person :=
  [mkPerson "Thandi" (some "TA"), mkPerson "Olu" (some "OTHER")]

def c1ExTables : List Table := [mkTable "t1" 2]

/-- C1 witness fixture: two TAs over two tables. -/
def c1WRoster : List Person :=
  [mkPerson "Tina" (some "TA"), mkPerson "Toby" (some "TA")]

def c1WTables : List Table := [mkTable "t1" 1, mkTable "t2" 1]

/-- The state a run returns, the empty state on error. -/
def seatResultState (r : Except SeatErr SeatState) : SeatState :=
  match r with
  | Except.ok st => st
  | Except.error _ => ⟨[], []⟩

/-- C3 counterexample fixture: a single TA (and no FACULTY) against two
tables. -/
def c3ExRoster : List Person := [mkPerson "Tau" (some "TA")]

def c3ExTables : List Table := [mkTable "t1" 1, mkTable "t2" 1]

/-- C3 witness fixture: two TAs over two tables. -/
def c3WRoster : List Person :=
  [mkPerson "Tebogo" (some "TA"), mkPerson "Thembi" (some "TA")]

def c3WTables : List Table := [mkTable "t1" 2, mkTable "t2" 2]

/-- C2 witness fixture: a student preferring both seated TAs weights two
part-filled tables; both get the forcing weight -1. -/
def c2WPerson : Person :=
  ⟨"Pat", some "STUDENT", [], ["Ada", "Ben"], false, fun _ => 0⟩

def c2WState : SeatState :=
  ⟨[⟨"t1", 2, [mkPerson "Ada" (some "TA")]⟩,
    ⟨"t2", 2, [mkPerson "Ben" (some "TA")]⟩], ["Ada", "Ben"]⟩

/-- Warn invariant relative to the initial world `w0`: every known person is
either original or was warned about. -/
def WarnInv (w0 : World) (wa : World × List String) : Prop :=
  ∀ m, m ∈ wa.1.names → m ∈ w0.names ∨ m ∈ wa.2

/-- Dict lookup in a Person's backgrounds mapping (Python
`p.backgrounds[background]`, `background in p.backgrounds`). -/
def bgLookup : List (String × Rat) → String → Option Rat
  | [], _ => none
  | (k, v) :: rest, bg => if k = bg then some v else bgLookup rest bg

/-- The background skill of a person; callers only read it for people that
carry the background. -/
def skillOf (p : Person) (bg : String) : Rat :=
  (bgLookup p.backgrounds bg).getD 0

/-- group_plan.py lines 50-52: the people carrying the background skill,
in input order. -/
def peopleWithBackground (persons : List Person) (bg : String) : List Person :=
  persons.filter (fun p => (bgLookup p.backgrounds bg).isSome)

/-- group_plan.py line 60: stable ascending sort by background skill. -/
def sortBySkill (l : List Person) (bg : String) : List Person :=
  List.insertionSort (fun p q => skillOf p bg ≤ skillOf q bg) l

/-- group_plan.py lines 76-84: the pre-penalty score vector over the
candidate pairs: squared skill difference to the anchor under match,
skill sum otherwise. -/
def baseScores (mtch : Bool) (bg : String) (anchor : Person)
    (pairs : List Person) : List Rat :=
  if mtch then pairs.map (fun q => (skillOf q bg - skillOf anchor bg) ^ 2)
  else pairs.map (fun q => skillOf q bg + skillOf anchor bg)

def maxRatAux : Rat → List Rat → Rat
  | acc, [] => acc
  | acc, x :: r => maxRatAux (max acc x) r

/-- Python `max(skill_diff)`: the maximum of the score vector (0 for the
empty vector, on which Python raises instead; the model errors before
reading it). -/
def maxRat : List Rat → Rat
  | [] => 0
  | x :: r => maxRatAux x r

/-- group_plan.py line 87: `np.clip(skill_diff - max(skill_diff)/2 *
counts**2, 0, None)`, the pair-count penalty with a floor of zero; the
counts come from `get_pair_count_for_people` on the deduplicated pairs. -/
def penalizedScores (mtch : Bool) (bg : String) (anchor : Person)
    (pairs : List Person) : List Rat :=
  ((baseScores mtch bg anchor pairs).zip
      (pairs.map (fun q => anchor.pairCounts q.name))).map
    (fun bc => max 0 (bc.1 - maxRat (baseScores mtch bg anchor pairs) / 2
      * ((bc.2 : Nat) : Rat) ^ 2))

/-- group_plan.py lines 90-94: the argsort reorder, modelled as a stable
sort of the (score, person) pairs by score (np.argsort leaves the order of
ties unspecified; every claim checked here is tie-order invariant). -/
def sortByScore (l : List (Rat × Person)) : List (Rat × Person) :=
  List.insertionSort (fun a b => a.1 ≤ b.1) l

/-- group_plan.py lines 96-98: the final score vector handed to the draw,
with the all-zero vector replaced by all ones (uniform fallback). -/
def drawDistribution (mtch : Bool) (bg : String) (anchor : Person)
    (pairs : List Person) : List (Rat × Person) :=
  if (sortByScore ((penalizedScores mtch bg anchor pairs).zip pairs)).all
      (fun a => a.1 == 0) then
    (sortByScore ((penalizedScores mtch bg anchor pairs).zip pairs)).map
      (fun a => ((1 : Rat), a.2))
  else sortByScore ((penalizedScores mtch bg anchor pairs).zip pairs)

/-- group_plan.py line 105: the probability vector `skill_diff /
skill_diff.sum()` attached to its persons. -/
def drawProbs (dist : List (Rat × Person)) : List (Rat × Person) :=
  dist.map (fun a => (a.1 / (dist.map Prod.fst).sum, a.2))

/-- The validity conditions numpy's `rng.choice(pairs, size=k,
replace=False, p=probs)` enforces on a draw: exactly k distinct people,
each a listed candidate of positive probability. -/
def pickValid (dist : List (Rat × Person)) (picked : List Person)
    (k : Nat) : Bool :=
  picked.length == k
    && decide (picked.map Person.name).Nodup
    && picked.all (fun x =>
        dist.any (fun a => a.2.name == x.name && decide (0 < a.1)))

/-- Python `list.remove` under Person equality (which is name equality):
drop the first person with the given name. -/
def removeOneByName : List Person → String → List Person
  | [], _ => []
  | p :: rest, n => if p.name = n then rest else p :: removeOneByName rest n

def removeAllByName (l : List Person) (ns : List String) : List Person :=
  ns.foldl removeOneByName l

def noBackgroundMsg : String := "No people with background"

def groupConfigErrorMsg : String :=
  "Number of people with background is larger than number of groups"

def emptyMaxMsg : String := "max() arg is an empty sequence"

def popEmptyMsg : String := "pop from empty list"

def choiceErrorMsg : String := "invalid weighted draw"

def loopGuardMsg : String := "loop guard exhausted"

/-- group_plan.py lines 63-112, the while loop of
create_groups_based_on_background.  The seeded `rng.choice` draw is the
one source of randomness; it is modelled by the oracle `pick`, which reads
the probability-annotated candidate list the code hands to numpy, and
whose answer is checked against the conditions numpy itself enforces.  The
fuel argument (called with the pool size, which each iteration strictly
shrinks) makes the recursion structural; the exhaustion branch is
unreachable for a positive group size, and a zero group size ends in an
error on both sides (numpy rejects `size=-1`; the model drains the pool
and fails on the empty pop). -/
def groupLoop (pick : List (Rat × Person) → Nat → List Person)
    (bg : String) (mtch : Bool) (gs : Nat) :
    Nat → List Person → List (List Person) →
      Except String (List (List Person) × List Person)
  | 0, pool, acc =>
    if pool.length < gs then Except.ok (acc, pool)
    else Except.error loopGuardMsg
  | fuel + 1, pool, acc =>
    if pool.length < gs then Except.ok (acc, pool)
    else
      match pool.getLast? with
      | none => Except.error popEmptyMsg
      | some anchor =>
        match dedupByName pool.dropLast with
        | [] => Except.error emptyMaxMsg
        | p0 :: prest =>
          if pickValid (drawProbs (drawDistribution mtch bg anchor (p0 :: prest)))
              (pick (drawProbs (drawDistribution mtch bg anchor (p0 :: prest)))
                (gs - 1))
              (gs - 1) then
            groupLoop pick bg mtch gs fuel
              (removeAllByName pool.dropLast
                ((pick (drawProbs (drawDistribution mtch bg anchor (p0 :: prest)))
                  (gs - 1)).map Person.name))
              (acc ++ [anchor
                :: pick (drawProbs (drawDistribution mtch bg anchor (p0 :: prest)))
                  (gs - 1)])
          else Except.error choiceErrorMsg

/-- group_plan.py lines 125-128: leftovers are popped from the high end
and appended to the first groups in turn. -/
def addLeftovers : List (List Person) → List Person → List (List Person)
  | grs, [] => grs
  | [], _ :: _ => []
  | g :: grs, l :: ls => (g ++ [l]) :: addLeftovers grs ls

/-- Model of create_groups_based_on_background (group_plan.py lines
16-166) up to the returned grouping; the dataframe conversion and CSV save
are out of scope.  Groups are lists of persons, anchor first, then the
drawn partners in draw order. -/
def createGroupsBasedOnBackground
    (pick : List (Rat × Person) → Nat → List Person)
    (persons : List Person) (bg : String) (gs : Nat) (mtch : Bool) :
    Except String (List (List Person)) :=
  if (peopleWithBackground persons bg).length = 0 then
    Except.error noBackgroundMsg
  else
    match groupLoop pick bg mtch gs
        (sortBySkill (peopleWithBackground persons bg) bg).length
        (sortBySkill (peopleWithBackground persons bg) bg) [] with
    | Except.error e => Except.error e
    | Except.ok (gps, leftover) =>
      if gps.length < leftover.length then Except.error groupConfigErrorMsg
      else Except.ok (addLeftovers gps leftover.reverse)

/-- The selection score as the specification words it, per candidate. -/
def specSelScore (mtch : Bool) (bg : String) (anchor cand : Person) : Rat :=
  if mtch then (skillOf cand bg - skillOf anchor bg) ^ 2
  else skillOf cand bg + skillOf anchor bg

/-- The maximum pre-penalty score over the candidates, as the
specification words it. -/
def specMaxScore (mtch : Bool) (bg : String) (anchor : Person)
    (pairs : List Person) : Rat :=
  maxRat (pairs.map (specSelScore mtch bg anchor))

/-- The penalized score as the specification words it:
`max(0, score - maxScore/2 * pairingCount^2)`. -/
def specPenalized (mtch : Bool) (bg : String) (anchor : Person)
    (pairs : List Person) (cand : Person) : Rat :=
  max 0 (specSelScore mtch bg anchor cand
    - specMaxScore mtch bg anchor pairs / 2
      * ((anchor.pairCounts cand.name : Nat) : Rat) ^ 2)

/-- A deterministic draw oracle: the first k candidates in distribution
order. -/
def pickFirst (dist : List (Rat × Person)) (k : Nat) : List Person :=
  (dist.map Prod.snd).take k

/-- A person with one background skill entry. -/
def mkBgPerson (n : String) (sk : Rat) : Person :=
  ⟨n, some "STUDENT", [("Math", sk)], [], false, fun _ => 0⟩

/-- C6 counterexample fixture: two people with the background, group size
equal to their number. -/
def c6ExPersons : List Person := [mkBgPerson "Aba" 0, mkBgPerson "Bam" 0]

/-- C6 witness fixtures: nobody with the background; one person against
group size three. -/
def c6WPersons : List Person := [mkPerson "Noma" (some "STUDENT")]

def c6W2Persons : List Person := [mkBgPerson "Zola" 0]

/-- C5 witness fixture: an anchor and one candidate of equal skill. -/
def c5WAnchor : Person := mkBgPerson "Ana" 0

def c5WCand : Person := mkBgPerson "Bea" 0

theorem bumpCnt_cnt (self other a b : String) (w : World) :
    (bumpCnt self other w).cnt a b
      = if a = self ∧ b = other then w.cnt a b + 1 else w.cnt a b := rfl

theorem addPairW_cnt_self (w : World) (a b : String) (hab : a ≠ b) :
    (addPairW a b w).cnt a b = w.cnt a b + 1 := by
  simp only [addPairW, addPairOneSide, if_neg hab, if_neg (Ne.symm hab), bumpCnt_cnt]
  simp [hab]

theorem addPairW_cnt_other (w : World) (a b : String) (hab : a ≠ b) :
    (addPairW a b w).cnt b a = w.cnt b a + 1 := by
  simp only [addPairW, addPairOneSide, if_neg hab, if_neg (Ne.symm hab), bumpCnt_cnt]
  simp [Ne.symm hab]

theorem addPairW_cnt_frame (w : World) (a b : String) (hab : a ≠ b)
    (x y : String) (h1 : ¬(x = a ∧ y = b)) (h2 : ¬(x = b ∧ y = a)) :
    (addPairW a b w).cnt x y = w.cnt x y := by
  simp only [addPairW, addPairOneSide, if_neg hab, if_neg (Ne.symm hab), bumpCnt_cnt]
  simp [h1, h2]

theorem addPairW_self (w : World) (a : String) : addPairW a a w = w := by
  simp [addPairW]

theorem symmCnt_addPairW (w : World) (a b : String) (h : SymmCnt w) :
    SymmCnt (addPairW a b w) := by
  by_cases hab : a = b
  · subst hab; rw [addPairW_self]; exact h
  · intro x y
    by_cases hxy : x = y
    · subst hxy; rfl
    · by_cases h1 : x = a ∧ y = b
      · obtain ⟨hx, hy⟩ := h1; subst hx; subst hy
        rw [addPairW_cnt_self w x y hab, addPairW_cnt_other w x y hab, h x y]
      · by_cases h2 : x = b ∧ y = a
        · obtain ⟨hx, hy⟩ := h2; subst hx; subst hy
          rw [addPairW_cnt_other w y x hab, addPairW_cnt_self w y x hab, h x y]
        · rw [addPairW_cnt_frame w a b hab x y h1 h2,
            addPairW_cnt_frame w a b hab y x, h x y]
          · intro hc; exact h2 ⟨hc.2, hc.1⟩
          · intro hc; exact h1 ⟨hc.2, hc.1⟩

theorem symmCnt_addPersonsW (a : String) (bs : List String) (w : World)
    (h : SymmCnt w) : SymmCnt (addPersonsW a bs w) := by
  induction bs generalizing w with
  | nil => exact h
  | cons b bs ih => exact ih _ (symmCnt_addPairW w a b h)

theorem symmCnt_applyPairOp (w : World) (op : PairOp) (h : SymmCnt w) :
    SymmCnt (applyPairOp w op) := by
  cases op with
  | pair a b => exact symmCnt_addPairW w a b h
  | persons a bs => exact symmCnt_addPersonsW a bs w h

theorem symmCnt_applyPairOps (ops : List PairOp) (w : World) (h : SymmCnt w) :
    SymmCnt (applyPairOps ops w) := by
  induction ops generalizing w with
  | nil => exact h
  | cons op ops ih => exact ih _ (symmCnt_applyPairOp w op h)

/-- C7: `add_pair(other, reciprocate=True)` increments self's count for
other and other's count for self by exactly one each and changes nothing
else, does nothing at all on a self-pairing, and after any sequence of
`add_pair`/`add_persons` calls starting from freshly created persons the
pairing counts are symmetric. -/
theorem c7_addPair_increments_and_symmetry :
    (∀ (w : World) (a b : String), a ≠ b →
      (addPairW a b w).cnt a b = w.cnt a b + 1 ∧
      (addPairW a b w).cnt b a = w.cnt b a + 1 ∧
      ∀ x y : String, ¬(x = a ∧ y = b) → ¬(x = b ∧ y = a) →
        (addPairW a b w).cnt x y = w.cnt x y) ∧
    (∀ (w : World) (a : String), addPairW a a w = w) ∧
    (∀ (ns : List String) (ops : List PairOp) (a b : String),
      (applyPairOps ops (initWorld ns)).cnt a b
        = (applyPairOps ops (initWorld ns)).cnt b a) := by
  refine ⟨fun w a b hab => ⟨addPairW_cnt_self w a b hab,
    addPairW_cnt_other w a b hab, addPairW_cnt_frame w a b hab⟩,
    addPairW_self, fun ns ops a b => ?_⟩
  exact symmCnt_applyPairOps ops (initWorld ns) (fun _ _ => rfl) a b

/-- Witness for C7 at a concrete input: pairing Ann with Ben on a fresh
two-person roster gives both directed counts the value one. -/
theorem c7_addPair_increments_and_symmetry_witness :
    (addPairW "Ann" "Ben" (initWorld ["Ann", "Ben"])).cnt "Ann" "Ben" = 0 + 1 :=
  (c7_addPair_increments_and_symmetry.1 (initWorld ["Ann", "Ben"]) "Ann" "Ben"
    (by decide)).1

theorem addPairW_cnt_cases (w : World) (a b x y : String) (hxy : x ≠ y) :
    (addPairW a b w).cnt x y
      = w.cnt x y + (if (x = a ∧ y = b) ∨ (x = b ∧ y = a) then 1 else 0) := by
  by_cases hab : a = b
  · subst hab
    rw [addPairW_self]
    have hno : ¬((x = a ∧ y = a) ∨ (x = a ∧ y = a)) := by
      rintro (⟨h1, h2⟩ | ⟨h1, h2⟩) <;> exact hxy (h1.trans h2.symm)
    rw [if_neg hno]
    omega
  · by_cases h1 : x = a ∧ y = b
    · obtain ⟨hx, hy⟩ := h1
      subst hx; subst hy
      rw [addPairW_cnt_self w x y hab, if_pos (Or.inl ⟨rfl, rfl⟩)]
    · by_cases h2 : x = b ∧ y = a
      · obtain ⟨hx, hy⟩ := h2
        subst hx; subst hy
        rw [addPairW_cnt_other w y x hab, if_pos (Or.inr ⟨rfl, rfl⟩)]
      · rw [addPairW_cnt_frame w a b hab x y h1 h2, if_neg (by tauto)]
        omega

theorem addPersonsW_cnt (p : String) (others : List String) (w : World)
    (a b : String) (hab : a ≠ b) :
    (addPersonsW p others w).cnt a b
      = w.cnt a b + (if a = p then others.count b else 0)
        + (if b = p then others.count a else 0) := by
  induction others generalizing w with
  | nil => simp [addPersonsW]
  | cons o os ih =>
    have hstep : addPersonsW p (o :: os) w = addPersonsW p os (addPairW p o w) := rfl
    rw [hstep, ih (addPairW p o w), addPairW_cnt_cases w p o a b hab,
      List.count_cons, List.count_cons]
    simp only [beq_iff_eq]
    by_cases hap : a = p <;> by_cases hbp : b = p
    · exact absurd (hap.trans hbp.symm) hab
    · by_cases hob : o = b
      · simp only [if_pos hap, if_neg hbp, if_pos hob,
          if_pos (show (a = p ∧ b = o) ∨ (a = o ∧ b = p) from Or.inl ⟨hap, hob.symm⟩)]
        omega
      · simp only [if_pos hap, if_neg hbp, if_neg hob,
          if_neg (show ¬((a = p ∧ b = o) ∨ (a = o ∧ b = p)) from
            fun hc => hc.elim (fun h2 => hob h2.2.symm) (fun h2 => hbp h2.2))]
        omega
    · by_cases hoa : o = a
      · simp only [if_pos hbp, if_neg hap, if_pos hoa,
          if_pos (show (a = p ∧ b = o) ∨ (a = o ∧ b = p) from Or.inr ⟨hoa.symm, hbp⟩)]
        omega
      · simp only [if_pos hbp, if_neg hap, if_neg hoa,
          if_neg (show ¬((a = p ∧ b = o) ∨ (a = o ∧ b = p)) from
            fun hc => hc.elim (fun h2 => hap h2.1) (fun h2 => hoa h2.1.symm))]
        omega
    · simp only [if_neg hap, if_neg hbp,
        if_neg (show ¬((a = p ∧ b = o) ∨ (a = o ∧ b = p)) from
          fun hc => hc.elim (fun h2 => hap h2.1) (fun h2 => hbp h2.2))]

theorem pairTableRev_cnt (l : List String) (w : World) (a b : String)
    (hab : a ≠ b) :
    (pairTableRev l w).cnt a b = w.cnt a b + l.count a * l.count b := by
  induction l generalizing w with
  | nil => simp [pairTableRev]
  | cons p rest ih =>
    have hstep : pairTableRev (p :: rest) w = pairTableRev rest (addPersonsW p rest w) := rfl
    rw [hstep, ih (addPersonsW p rest w), addPersonsW_cnt p rest w a b hab,
      List.count_cons, List.count_cons]
    simp only [beq_iff_eq]
    by_cases hpa : p = a <;> by_cases hpb : p = b
    · exact absurd (hpa.symm.trans hpb) hab
    · simp only [if_pos hpa.symm, if_pos hpa,
        if_neg (show ¬b = p from fun h => hpb h.symm), if_neg hpb]
      ring
    · simp only [if_pos hpb.symm, if_pos hpb,
        if_neg (show ¬a = p from fun h => hpa h.symm), if_neg hpa]
      ring
    · simp only [if_neg (show ¬a = p from fun h => hpa h.symm),
        if_neg (show ¬b = p from fun h => hpb h.symm), if_neg hpa, if_neg hpb]
      ring

theorem ensurePerson_cnt (wa : World × List String) (n : String) :
    (ensurePerson wa n).1.cnt = wa.1.cnt := by
  unfold ensurePerson
  split <;> rfl

theorem foldl_ensurePerson_cnt (members : List String)
    (wa : World × List String) :
    (members.foldl ensurePerson wa).1.cnt = wa.1.cnt := by
  induction members generalizing wa with
  | nil => rfl
  | cons m ms ih => rw [List.foldl_cons, ih, ensurePerson_cnt]

theorem processTable_cnt (wa : World × List String) (members : List String)
    (a b : String) (hab : a ≠ b) :
    (processTable wa members).1.cnt a b
      = wa.1.cnt a b + members.count a * members.count b := by
  unfold processTable
  rw [pairTableRev_cnt _ _ _ _ hab]
  rw [foldl_ensurePerson_cnt]
  rw [List.count_reverse, List.count_reverse]

theorem nodup_count_mul (l : List String) (a b : String) (hn : l.Nodup) :
    l.count a * l.count b = if a ∈ l ∧ b ∈ l then 1 else 0 := by
  by_cases ha : a ∈ l
  · by_cases hb : b ∈ l
    · rw [List.count_eq_one_of_mem hn ha, List.count_eq_one_of_mem hn hb,
        if_pos ⟨ha, hb⟩]
    · rw [List.count_eq_zero_of_not_mem hb, if_neg (by tauto)]
      omega
  · rw [List.count_eq_zero_of_not_mem ha, if_neg (by tauto)]
    omega

theorem foldGroups_cnt (gs : List (String × List String))
    (wa : World × List String) (a b : String) (hab : a ≠ b)
    (hn : ∀ g ∈ gs, g.2.Nodup) :
    (gs.foldl (fun wa2 g => processTable wa2 g.2) wa).1.cnt a b
      = wa.1.cnt a b + (gs.map (fun g => if a ∈ g.2 ∧ b ∈ g.2 then 1 else 0)).sum := by
  induction gs generalizing wa with
  | nil => simp
  | cons g gs ih =>
    rw [List.foldl_cons, ih _ (fun g2 hg2 => hn g2 (List.mem_cons_of_mem g hg2)),
      processTable_cnt wa g.2 a b hab,
      nodup_count_mul g.2 a b (hn g (List.mem_cons_self g gs))]
    simp [Nat.add_assoc]

theorem foldPlans_cnt (plans : List (List (String × String)))
    (wa : World × List String) (a b : String) (hab : a ≠ b)
    (hn : ∀ plan ∈ plans, ∀ g ∈ groupRows plan, g.2.Nodup) :
    (plans.foldl
      (fun wa2 plan => (groupRows plan).foldl (fun wa3 g => processTable wa3 g.2) wa2)
      wa).1.cnt a b
      = wa.1.cnt a b + sharedGroupCount plans a b := by
  unfold sharedGroupCount
  induction plans generalizing wa with
  | nil => simp
  | cons plan plans ih =>
    rw [List.foldl_cons,
      ih _ (fun p hp => hn p (List.mem_cons_of_mem plan hp)),
      foldGroups_cnt (groupRows plan) wa a b hab (hn plan (List.mem_cons_self plan plans))]
    simp [Nat.add_assoc]

theorem processPreviousPairings_cnt (plans : List (List (String × String)))
    (w : World) (a b : String) (hab : a ≠ b)
    (hn : ∀ plan ∈ plans, ∀ g ∈ groupRows plan, g.2.Nodup) :
    (processPreviousPairings plans w).1.cnt a b
      = w.cnt a b + sharedGroupCount plans a b :=
  foldPlans_cnt plans (w, []) a b hab hn

theorem addPairW_names (a b : String) (w : World) :
    (addPairW a b w).names = w.names := by
  unfold addPairW addPairOneSide bumpCnt
  split
  · rfl
  · split <;> rfl

theorem addPersonsW_names (p : String) (others : List String) (w : World) :
    (addPersonsW p others w).names = w.names := by
  induction others generalizing w with
  | nil => rfl
  | cons o os ih =>
    have hstep : addPersonsW p (o :: os) w = addPersonsW p os (addPairW p o w) := rfl
    rw [hstep, ih, addPairW_names]

theorem pairTableRev_names (l : List String) (w : World) :
    (pairTableRev l w).names = w.names := by
  induction l generalizing w with
  | nil => rfl
  | cons p rest ih =>
    have hstep : pairTableRev (p :: rest) w = pairTableRev rest (addPersonsW p rest w) := rfl
    rw [hstep, ih, addPersonsW_names]

theorem ensurePerson_mem (wa : World × List String) (n : String) :
    n ∈ (ensurePerson wa n).1.names := by
  unfold ensurePerson
  split
  · assumption
  · simp

theorem ensurePerson_names_mono (wa : World × List String) (n m : String)
    (h : m ∈ wa.1.names) : m ∈ (ensurePerson wa n).1.names := by
  unfold ensurePerson
  split
  · exact h
  · simp [h]

theorem foldl_ensurePerson_names_mono (members : List String)
    (wa : World × List String) (m : String) (h : m ∈ wa.1.names) :
    m ∈ (members.foldl ensurePerson wa).1.names := by
  induction members generalizing wa with
  | nil => exact h
  | cons x xs ih => exact ih (ensurePerson wa x) (ensurePerson_names_mono wa x m h)

theorem foldl_ensurePerson_mem (members : List String)
    (wa : World × List String) (n : String) (h : n ∈ members) :
    n ∈ (members.foldl ensurePerson wa).1.names := by
  induction members generalizing wa with
  | nil => exact absurd h (List.not_mem_nil n)
  | cons x xs ih =>
    rcases List.mem_cons.mp h with rfl | hx
    · exact foldl_ensurePerson_names_mono xs (ensurePerson wa n) n
        (ensurePerson_mem wa n)
    · exact ih (ensurePerson wa x) hx

theorem processTable_names_mono (wa : World × List String)
    (members : List String) (m : String) (h : m ∈ wa.1.names) :
    m ∈ (processTable wa members).1.names := by
  unfold processTable
  rw [pairTableRev_names]
  exact foldl_ensurePerson_names_mono members wa m h

theorem processTable_mem (wa : World × List String) (members : List String)
    (n : String) (h : n ∈ members) :
    n ∈ (processTable wa members).1.names := by
  unfold processTable
  rw [pairTableRev_names]
  exact foldl_ensurePerson_mem members wa n h

theorem ensurePerson_warnInv (w0 : World) (wa : World × List String)
    (n : String) (h : WarnInv w0 wa) : WarnInv w0 (ensurePerson wa n) := by
  unfold ensurePerson
  split
  · exact h
  · intro m hm
    simp only [List.mem_append, List.mem_singleton] at hm
    rcases hm with hm | rfl
    · rcases h m hm with h1 | h1
      · exact Or.inl h1
      · exact Or.inr (List.mem_append_left _ h1)
    · exact Or.inr (List.mem_append_right _ (List.mem_singleton_self m))

theorem foldl_ensurePerson_warnInv (w0 : World) (members : List String)
    (wa : World × List String) (h : WarnInv w0 wa) :
    WarnInv w0 (members.foldl ensurePerson wa) := by
  induction members generalizing wa with
  | nil => exact h
  | cons x xs ih => exact ih (ensurePerson wa x) (ensurePerson_warnInv w0 wa x h)

theorem processTable_warnInv (w0 : World) (wa : World × List String)
    (members : List String) (h : WarnInv w0 wa) :
    WarnInv w0 (processTable wa members) := by
  unfold processTable
  intro m
  rw [pairTableRev_names]
  exact foldl_ensurePerson_warnInv w0 members wa h m

theorem foldGroups_names_mono (gs : List (String × List String))
    (wa : World × List String) (m : String) (h : m ∈ wa.1.names) :
    m ∈ (gs.foldl (fun wa2 g => processTable wa2 g.2) wa).1.names := by
  induction gs generalizing wa with
  | nil => exact h
  | cons g gs ih => exact ih _ (processTable_names_mono wa g.2 m h)

theorem foldGroups_mem (gs : List (String × List String))
    (wa : World × List String) (g : String × List String) (hg : g ∈ gs)
    (n : String) (h : n ∈ g.2) :
    n ∈ (gs.foldl (fun wa2 g2 => processTable wa2 g2.2) wa).1.names := by
  induction gs generalizing wa with
  | nil => exact absurd hg (List.not_mem_nil g)
  | cons g2 gs ih =>
    rcases List.mem_cons.mp hg with rfl | hgs
    · exact foldGroups_names_mono gs _ n (processTable_mem wa g.2 n h)
    · exact ih _ hgs

theorem foldGroups_warnInv (w0 : World) (gs : List (String × List String))
    (wa : World × List String) (h : WarnInv w0 wa) :
    WarnInv w0 (gs.foldl (fun wa2 g => processTable wa2 g.2) wa) := by
  induction gs generalizing wa with
  | nil => exact h
  | cons g gs ih => exact ih _ (processTable_warnInv w0 wa g.2 h)

theorem foldPlans_names_mono (plans : List (List (String × String)))
    (wa : World × List String) (m : String) (h : m ∈ wa.1.names) :
    m ∈ (plans.foldl
      (fun wa2 plan => (groupRows plan).foldl (fun wa3 g => processTable wa3 g.2) wa2)
      wa).1.names := by
  induction plans generalizing wa with
  | nil => exact h
  | cons plan plans ih => exact ih _ (foldGroups_names_mono (groupRows plan) wa m h)

theorem foldPlans_mem (plans : List (List (String × String)))
    (wa : World × List String) (plan : List (String × String))
    (hp : plan ∈ plans) (g : String × List String) (hg : g ∈ groupRows plan)
    (n : String) (h : n ∈ g.2) :
    n ∈ (plans.foldl
      (fun wa2 plan2 => (groupRows plan2).foldl (fun wa3 g2 => processTable wa3 g2.2) wa2)
      wa).1.names := by
  induction plans generalizing wa with
  | nil => exact absurd hp (List.not_mem_nil plan)
  | cons plan2 plans ih =>
    rcases List.mem_cons.mp hp with rfl | hps
    · exact foldPlans_names_mono plans _ n (foldGroups_mem (groupRows plan) wa g hg n h)
    · exact ih _ hps

theorem foldPlans_warnInv (w0 : World) (plans : List (List (String × String)))
    (wa : World × List String) (h : WarnInv w0 wa) :
    WarnInv w0 (plans.foldl
      (fun wa2 plan => (groupRows plan).foldl (fun wa3 g => processTable wa3 g.2) wa2)
      wa) := by
  induction plans generalizing wa with
  | nil => exact h
  | cons plan plans ih => exact ih _ (foldGroups_warnInv w0 (groupRows plan) wa h)

theorem mem_insertRow_of_mem (acc : List (String × List String))
    (lbl n x : String) (h : ∃ g ∈ acc, x ∈ g.2) :
    ∃ g ∈ insertRow acc lbl n, x ∈ g.2 := by
  obtain ⟨g, hg, hx⟩ := h
  unfold insertRow
  split
  · by_cases hl : g.1 = lbl
    · refine ⟨(g.1, g.2 ++ [n]), ?_, List.mem_append_left _ hx⟩
      have hmap := List.mem_map_of_mem (fun g2 => if g2.1 = lbl then (g2.1, g2.2 ++ [n]) else g2) hg
      simp only [if_pos hl] at hmap
      exact hmap
    · refine ⟨g, ?_, hx⟩
      have hmap := List.mem_map_of_mem (fun g2 => if g2.1 = lbl then (g2.1, g2.2 ++ [n]) else g2) hg
      simp only [if_neg hl] at hmap
      exact hmap
  · exact ⟨g, List.mem_append_left _ hg, hx⟩

theorem mem_insertRow_self (acc : List (String × List String))
    (lbl n : String) : ∃ g ∈ insertRow acc lbl n, n ∈ g.2 := by
  unfold insertRow
  split
  · rename_i hany
    obtain ⟨g, hg, hl⟩ := List.any_eq_true.mp hany
    refine ⟨(g.1, g.2 ++ [n]), ?_, List.mem_append_right _ (List.mem_singleton_self n)⟩
    have hmap := List.mem_map_of_mem (fun g2 => if g2.1 = lbl then (g2.1, g2.2 ++ [n]) else g2) hg
    simp only [if_pos (beq_iff_eq.mp hl)] at hmap
    exact hmap
  · exact ⟨(lbl, [n]), List.mem_append_right _ (List.mem_singleton_self _),
      List.mem_singleton_self n⟩

theorem mem_foldRows (rows : List (String × String))
    (acc : List (String × List String)) (lbl n : String)
    (h : (lbl, n) ∈ rows ∨ ∃ g ∈ acc, n ∈ g.2) :
    ∃ g ∈ rows.foldl (fun acc2 r => insertRow acc2 r.1 r.2) acc, n ∈ g.2 := by
  induction rows generalizing acc with
  | nil =>
    rcases h with h | h
    · exact absurd h (List.not_mem_nil _)
    · exact h
  | cons r rows ih =>
    rw [List.foldl_cons]
    rcases h with h | h
    · rcases List.mem_cons.mp h with heq | hrest
      · obtain ⟨g, hg, hx⟩ := mem_insertRow_self acc r.1 r.2
        have h2 : r.2 = n := by rw [← heq]
        exact ih _ (Or.inr ⟨g, hg, h2 ▸ hx⟩)
      · exact ih _ (Or.inl hrest)
    · exact ih _ (Or.inr (mem_insertRow_of_mem acc r.1 r.2 n h))

theorem mem_groupRows (plan : List (String × String)) (lbl n : String)
    (h : (lbl, n) ∈ plan) : ∃ g ∈ groupRows plan, n ∈ g.2 :=
  mem_foldRows plan [] lbl n (Or.inl h)

/-- C8: process_previous_pairings increments, for every group of every
history frame and every unordered pair of distinct members of that group,
both members' mutual pairing counts by exactly one per shared group (no
double counting, none missed); every member name appears in the persons
map afterwards, and a name that was absent beforehand is warned about.
The model function is total, reflecting that the Python call never raises
on well-formed frames. -/
theorem c8_process_previous_pairings (plans : List (List (String × String)))
    (w : World)
    (hn : ∀ plan ∈ plans, ∀ g ∈ groupRows plan, g.2.Nodup) :
    (∀ a b : String, a ≠ b →
      (processPreviousPairings plans w).1.cnt a b
        = w.cnt a b + sharedGroupCount plans a b) ∧
    (∀ plan ∈ plans, ∀ r ∈ plan,
      r.2 ∈ (processPreviousPairings plans w).1.names ∧
      (r.2 ∉ w.names → r.2 ∈ (processPreviousPairings plans w).2)) := by
  constructor
  · exact fun a b hab => processPreviousPairings_cnt plans w a b hab hn
  · intro plan hp r hr
    obtain ⟨g, hg, hng⟩ := mem_groupRows plan r.1 r.2 (by
      rcases r with ⟨rl, rn⟩; exact hr)
    have hmem : r.2 ∈ (processPreviousPairings plans w).1.names :=
      foldPlans_mem plans (w, []) plan hp g hg r.2 hng
    refine ⟨hmem, fun habsent => ?_⟩
    have hinv : WarnInv w (processPreviousPairings plans w) :=
      foldPlans_warnInv w plans (w, []) (fun m hm => Or.inl hm)
    rcases hinv r.2 hmem with h1 | h1
    · exact absurd h1 habsent
    · exact h1

/-- Witness for C8 at a concrete input: one frame whose single group seats
Ann with an unknown Ben gives the pair count one and warns about Ben. -/
theorem c8_process_previous_pairings_witness :
    (processPreviousPairings [[("table 1", "Ann"), ("table 1", "Ben")]]
        (initWorld ["Ann"])).1.cnt "Ann" "Ben"
      = 0 + sharedGroupCount [[("table 1", "Ann"), ("table 1", "Ben")]] "Ann" "Ben" :=
  (c8_process_previous_pairings [[("table 1", "Ann"), ("table 1", "Ben")]]
    (initWorld ["Ann"]) (by decide)).1 "Ann" "Ben" (by decide)

/-- C10: get_pair_count_for_person on a never-paired person returns 0 but
is not read-only: the queried key is inserted with count 0, so it then
shows up in get_pairs, in get_pair_count_for_everyone_except and in the
adjacency-matrix writes, and a later everyone-except query differs from
the same query made before. -/
theorem c10_lookup_inserts_key (A : PCPerson) (B : String)
    (h : B ∉ A.pairKeys) :
    (getPairCountForPerson A B).1 = 0 ∧
    B ∈ ((getPairCountForPerson A B).2).pairKeys ∧
    B ∈ getPairs (getPairCountForPerson A B).2 ∧
    B ∈ (getPairCountForEveryoneExcept (getPairCountForPerson A B).2 []).1 ∧
    B ∉ (getPairCountForEveryoneExcept A []).1 ∧
    (A.name, B, 0) ∈ adjacencyWrites [(getPairCountForPerson A B).2] := by
  unfold getPairCountForPerson getPairCountForEveryoneExcept getPairs adjacencyWrites
  rw [if_neg h]
  refine ⟨rfl, ?_, ?_, ?_, ?_, ?_⟩
  · simp
  · simp
  · simp
  · simp [h]
  · simp

/-- Witness for C10 at a concrete input: a fresh Ann queried about Ben. -/
theorem c10_lookup_inserts_key_witness :
    "Ben" ∈ ((getPairCountForPerson ⟨"Ann", [], fun _ => 0⟩ "Ben").2).pairKeys :=
  (c10_lookup_inserts_key ⟨"Ann", [], fun _ => 0⟩ "Ben" (by simp)).2.1

/-- C9 (code bug exhibit): Person equality compares only the name-derived
identity, while Person hash also mixes group, backgrounds, exclude and
props; two records for the same name with different groups compare equal
yet hash differently under an explicit interpreter hash assignment, so an
entry keyed by one of them can be silently missed through the other. -/
theorem c9_eq_without_hash_eq :
    personEqPy ⟨"Ann", some "TA", "", false, ""⟩
        ⟨"Ann", some "STUDENT", "", false, ""⟩ = true ∧
    personHashPy demoStrHash 0 (fun _ => 0) ⟨"Ann", some "TA", "", false, ""⟩
      ≠ personHashPy demoStrHash 0 (fun _ => 0)
          ⟨"Ann", some "STUDENT", "", false, ""⟩ := by
  constructor
  · rfl
  · decide

theorem length_randomizeGroup (l : List Person) (g : String) :
    (randomizeGroup l g).length
      = (l.filter (fun p => p.group == some g)).length :=
  (List.perm_insertionSort _ _).length_eq

theorem fourGroup_pointwise (p : Person) :
    ((if p.group == some "TA" then 1 else 0)
      + (if p.group == some "FACULTY" then 1 else 0)
      + (if p.group == some "STUDENT" then 1 else 0)
      + (if p.group == some "GUEST" then 1 else 0) : Nat)
      = if isFourGroup p then 1 else 0 := by
  unfold isFourGroup
  cases hg : p.group with
  | none => simp
  | some s =>
    by_cases h1 : s = "TA"
    · simp [h1]
    · by_cases h2 : s = "FACULTY"
      · simp [h1, h2]
      · by_cases h3 : s = "STUDENT"
        · simp [h1, h2, h3]
        · by_cases h4 : s = "GUEST"
          · simp [h1, h2, h3, h4]
          · simp [h1, h2, h3, h4]

theorem fourBucket_length (l : List Person) :
    (randomizeGroup l "TA").length + (randomizeGroup l "FACULTY").length
      + (randomizeGroup l "STUDENT").length + (randomizeGroup l "GUEST").length
      = (l.filter isFourGroup).length := by
  simp only [length_randomizeGroup]
  induction l with
  | nil => rfl
  | cons p l ih =>
    have hp := fourGroup_pointwise p
    simp only [List.filter_cons]
    by_cases hTA : (p.group == some "TA") = true <;>
      by_cases hF : (p.group == some "FACULTY") = true <;>
        by_cases hS : (p.group == some "STUDENT") = true <;>
          by_cases hG : (p.group == some "GUEST") = true <;>
            by_cases h4 : isFourGroup p = true <;>
              simp only [hTA, hF, hS, hG, h4, if_true, if_false,
                Bool.not_eq_true] at hp ⊢ <;>
                simp_all <;> omega

theorem totalSeats_sortTables (tables : List Table) :
    totalSeats (sortTables tables) = totalSeats tables :=
  ((List.perm_insertionSort _ tables).map Table.capacity).sum_eq

/-- C4 (amended): whenever the total capacity is strictly below the number
of active persons carrying one of the four bucketed GROUP values, the run
raises the capacity error with the tables untouched and no placement
recorded; with initially empty tables every table is still empty at the
raise.  (The original claim counted all active persons; an active person
with any other GROUP value is invisible to the capacity check, see the
counterexample.) -/
theorem c4_capacity_error_before_seating (roster : List Person)
    (tables : List Table)
    (hcap : totalSeats tables < ((activeRoster roster).filter isFourGroup).length) :
    createSeatingPlan roster tables
      = Except.error ⟨notEnoughSeatsMsg, sortTables tables, []⟩
    ∧ ((∀ t ∈ tables, t.people = []) → ∀ t ∈ sortTables tables, t.people = []) := by
  constructor
  · have hc2 : totalSeats (sortTables tables) < unseatedCount0 roster := by
      unfold unseatedCount0
      rw [totalSeats_sortTables, fourBucket_length]
      exact hcap
    simp only [createSeatingPlan]
    rw [if_pos hc2]
  · intro hemp t ht
    exact hemp t ((List.perm_insertionSort _ tables).mem_iff.mp ht)

/-- Witness for C4 (amended) at a concrete input: two bucketed active
people versus one seat raise the capacity error. -/
theorem c4_capacity_error_before_seating_witness :
    createSeatingPlan c4WRoster c4WTables
      = Except.error ⟨notEnoughSeatsMsg, sortTables c4WTables, []⟩ :=
  (c4_capacity_error_before_seating c4WRoster c4WTables (by decide)).1

/-- C4 counterexample: the total capacity (one seat) is strictly below the
active roster size (two people), yet the run returns a result instead of
raising a capacity error, because the active person with GROUP "OTHER" is
not counted by the capacity check. -/
theorem c4_counterexample :
    totalSeats c4ExTables = 1 ∧ (activeRoster c4ExRoster).length = 2
      ∧ seatResultTag (createSeatingPlan c4ExRoster c4ExTables) = "ok" :=
  ⟨rfl, rfl, rfl⟩

theorem dedupByNameAux_eq (l : List Person) (seen : List String)
    (hdisj : ∀ p ∈ l, p.name ∉ seen) (hn : (l.map Person.name).Nodup) :
    dedupByNameAux seen l = l := by
  induction l generalizing seen with
  | nil => rfl
  | cons p l ih =>
    simp only [List.map_cons, List.nodup_cons] at hn
    unfold dedupByNameAux
    rw [if_neg (hdisj p (List.mem_cons_self p l))]
    congr 1
    refine ih (p.name :: seen) ?_ hn.2
    intro q hq
    simp only [List.mem_cons]
    rintro (hq1 | hq2)
    · exact hn.1 (hq1 ▸ List.mem_map_of_mem Person.name hq)
    · exact hdisj q (List.mem_cons_of_mem p hq) hq2

theorem dedupByName_eq (l : List Person) (hn : (l.map Person.name).Nodup) :
    dedupByName l = l :=
  dedupByNameAux_eq l [] (fun _ _ h => absurd h (List.not_mem_nil _)) hn

theorem scaledCounts_map (person : Person) (l : List Person) :
    scaledCounts person l = l.map (specScaledCount person) := by
  unfold scaledCounts specScaledCount
  by_cases hfac : (person.group == some "FACULTY") = true
  · simp only [hfac, if_true, Bool.true_and]
  · simp only [hfac, if_false, Bool.false_and]
    simp [Bool.not_eq_true] at hfac
    simp [hfac]

theorem tableWeightCode_spec (person : Person) (t : Table)
    (hn : (t.people.map Person.name).Nodup) :
    tableWeightCode person t
      = if t.people.length = 0 then none else some (specWeight person t) := by
  simp only [tableWeightCode, specWeight]
  rw [dedupByName_eq t.people hn, scaledCounts_map]
  by_cases hmatch : (t.people.any (fun o => prefMatch person o)) = true
  · have hne : ¬t.people.length = 0 := by
      obtain ⟨o, ho, _⟩ := List.any_eq_true.mp hmatch
      simp [List.length_eq_zero, List.ne_nil_of_mem ho]
    rw [if_pos hmatch, if_neg (by norm_num : ¬(0 : Rat) ≤ -1), if_neg hne,
      if_pos hmatch]
  · rw [if_neg hmatch, if_pos le_rfl, if_neg hmatch]

theorem weightsForAux_spec (person : Person) (ts : List Table)
    (l : List (String × Rat))
    (hn : ∀ t ∈ ts, (t.people.map Person.name).Nodup)
    (hok : weightsForAux person ts = some l) :
    l = (ts.filter (fun t => !t.isFull)).map
      (fun t => (t.name, specWeight person t)) := by
  induction ts generalizing l with
  | nil =>
    simp only [weightsForAux] at hok
    cases hok
    rfl
  | cons t ts ih =>
    rw [weightsForAux] at hok
    by_cases hfull : t.isFull = true
    · rw [if_pos hfull] at hok
      rw [List.filter_cons, if_neg (by simp [hfull])]
      exact ih l (fun u hu => hn u (List.mem_cons_of_mem t hu)) hok
    · rw [if_neg hfull] at hok
      rw [tableWeightCode_spec person t (hn t (List.mem_cons_self t ts))] at hok
      by_cases hnil : t.people.length = 0
      · rw [if_pos hnil] at hok
        exact absurd hok (by simp)
      · rw [if_neg hnil] at hok
        simp only [Option.map_eq_some'] at hok
        obtain ⟨l2, hl2, rfl⟩ := hok
        rw [List.filter_cons, if_pos (by simp [hfull])]
        rw [List.map_cons]
        congr 1
        exact ih l2 (fun u hu => hn u (List.mem_cons_of_mem t hu)) hl2

theorem specWeight_lb (person : Person) (t : Table) :
    specWeight person t = -1 ∨ 0 ≤ specWeight person t := by
  unfold specWeight
  by_cases hmatch : (t.people.any (fun o => prefMatch person o)) = true
  · rw [if_pos hmatch]
    exact Or.inl rfl
  · rw [if_neg hmatch]
    refine Or.inr (add_nonneg (div_nonneg ?_ ?_) (div_nonneg ?_ ?_)) <;>
      exact Nat.cast_nonneg _

theorem argminAux_mem (best : String × Rat) (l : List (String × Rat)) :
    argminAux best l ∈ best :: l := by
  induction l generalizing best with
  | nil => exact List.mem_singleton_self best
  | cons y l ih =>
    rw [argminAux]
    by_cases hlt : y.2 < best.2
    · rw [if_pos hlt]
      rcases List.mem_cons.mp (ih y) with h | h
      · rw [h]
        exact List.mem_cons_of_mem best (List.mem_cons_self y l)
      · exact List.mem_cons_of_mem best (List.mem_cons_of_mem y h)
    · rw [if_neg hlt]
      rcases List.mem_cons.mp (ih best) with h | h
      · rw [h]
        exact List.mem_cons_self best (y :: l)
      · exact List.mem_cons_of_mem best (List.mem_cons_of_mem y h)

theorem argminAux_le (best : String × Rat) (l : List (String × Rat)) :
    (argminAux best l).2 ≤ best.2 ∧ ∀ y ∈ l, (argminAux best l).2 ≤ y.2 := by
  induction l generalizing best with
  | nil => exact ⟨le_rfl, fun y hy => absurd hy (List.not_mem_nil y)⟩
  | cons y l ih =>
    rw [argminAux]
    by_cases hlt : y.2 < best.2
    · rw [if_pos hlt]
      obtain ⟨h1, h2⟩ := ih y
      refine ⟨le_of_lt (lt_of_le_of_lt h1 hlt), fun z hz => ?_⟩
      rcases List.mem_cons.mp hz with rfl | hz2
      · exact h1
      · exact h2 z hz2
    · rw [if_neg hlt]
      obtain ⟨h1, h2⟩ := ih best
      refine ⟨h1, fun z hz => ?_⟩
      rcases List.mem_cons.mp hz with rfl | hz2
      · exact le_trans h1 (le_of_not_lt hlt)
      · exact h2 z hz2

theorem argminAux_first (best : String × Rat) (l : List (String × Rat)) :
    firstWithVal (best :: l) (argminAux best l).2 = some (argminAux best l) := by
  induction l generalizing best with
  | nil =>
    simp [firstWithVal, argminAux, List.find?]
  | cons y l ih =>
    rw [argminAux]
    by_cases hlt : y.2 < best.2
    · rw [if_pos hlt]
      have hle : (argminAux y l).2 ≤ y.2 := (argminAux_le y l).1
      have hne : best.2 ≠ (argminAux y l).2 := by
        intro hcontra
        have hx := lt_of_le_of_lt hle hlt
        rw [← hcontra] at hx
        exact lt_irrefl _ hx
      have ihy := ih y
      simp only [firstWithVal, List.find?_cons] at ihy ⊢
      rw [show (best.2 == (argminAux y l).2) = false from beq_eq_false_iff_ne.mpr hne]
      exact ihy
    · rw [if_neg hlt]
      have hle : (argminAux best l).2 ≤ best.2 := (argminAux_le best l).1
      have ihb := ih best
      simp only [firstWithVal, List.find?_cons] at ihb ⊢
      by_cases heq : best.2 = (argminAux best l).2
      · rw [show (best.2 == (argminAux best l).2) = true from beq_iff_eq.mpr heq] at ihb ⊢
        exact ihb
      · have hlt2 : (argminAux best l).2 < best.2 :=
          lt_of_le_of_ne hle (fun hc => heq hc.symm)
        have hney : y.2 ≠ (argminAux best l).2 := by
          intro hc
          have hx := lt_of_lt_of_le hlt2 (le_of_not_lt hlt)
          rw [hc] at hx
          exact lt_irrefl _ hx
        rw [show (best.2 == (argminAux best l).2) = false from
            beq_eq_false_iff_ne.mpr heq] at ihb ⊢
        rw [show (y.2 == (argminAux best l).2) = false from
            beq_eq_false_iff_ne.mpr hney]
        exact ihb

theorem choosePerson_weights_eq (st : SeatState) (person : Person)
    (x : String × Rat) (rest : List (String × Rat))
    (hw : weightsFor st person = some (x :: rest)) :
    choosePerson st person =
      (if (addPersonToTable st (argminAux x rest).1 person).1 then
        Except.ok (addPersonToTable st (argminAux x rest).1 person).2
      else
        match findTable st.tables (argminAux x rest).1 with
        | some t =>
          if t.isFull then Except.error ⟨tableFullMsg, st.tables, st.placed⟩
          else if person.name ∈ st.placed then
            Except.error ⟨alreadySeatedMsg, st.tables, st.placed⟩
          else Except.error ⟨noTableMsg, st.tables, st.placed⟩
        | none => Except.error ⟨noTableMsg, st.tables, st.placed⟩) := by
  unfold choosePerson
  rw [hw]

theorem choosePerson_seats (st : SeatState) (person : Person)
    (x : String × Rat) (rest : List (String × Rat)) (st1 : SeatState)
    (hw : weightsFor st person = some (x :: rest))
    (hok : choosePerson st person = Except.ok st1) :
    addPersonToTable st (argminFirst (x :: rest)).1 person = (true, st1) := by
  rw [choosePerson_weights_eq st person x rest hw] at hok
  by_cases hadd : (addPersonToTable st (argminAux x rest).1 person).1 = true
  · rw [if_pos hadd] at hok
    have hst : (addPersonToTable st (argminAux x rest).1 person).2 = st1 :=
      Except.ok.inj hok
    rw [argminFirst, ← hst, ← hadd]
  · rw [if_neg hadd] at hok
    exfalso
    split at hok
    · split at hok
      · exact Except.noConfusion hok
      · split at hok
        · exact Except.noConfusion hok
        · exact Except.noConfusion hok
    · exact Except.noConfusion hok

/-- C2: for a person processed from the queue, the computed weight list
assigns every non-full table exactly the claim's weight: -1 when an
occupant is preference-matched with the person (specWeight's first
branch), otherwise occupied/capacity plus the person's scaled pairing
counts with the occupants divided by the occupant count, the senior
scaling applied inside specScaledCount; every weight is -1 or
nonnegative, the chosen table is the first one attaining the minimum
weight, and on success the person is seated exactly there. -/
theorem c2_weight_formula_and_min_choice (st : SeatState) (person : Person)
    (l : List (String × Rat))
    (hn : ∀ t ∈ st.tables, (t.people.map Person.name).Nodup)
    (hw : weightsFor st person = some l) :
    l = (st.tables.filter (fun t => !t.isFull)).map
        (fun t => (t.name, specWeight person t))
    ∧ (∀ x ∈ l, x.2 = -1 ∨ 0 ≤ x.2)
    ∧ (∀ x rest, l = x :: rest →
        (firstWithVal l (argminFirst l).2 = some (argminFirst l)
        ∧ (∀ y ∈ l, (argminFirst l).2 ≤ y.2)
        ∧ ∀ st1, choosePerson st person = Except.ok st1 →
            addPersonToTable st (argminFirst l).1 person = (true, st1))) := by
  have hmap := weightsForAux_spec person st.tables l hn hw
  refine ⟨hmap, ?_, ?_⟩
  · intro x hx
    rw [hmap] at hx
    obtain ⟨t, _, rfl⟩ := List.mem_map.mp hx
    exact specWeight_lb person t
  · intro x rest hcons
    subst hcons
    refine ⟨?_, ?_, ?_⟩
    · rw [argminFirst]
      exact argminAux_first x rest
    · intro y hy
      rw [argminFirst]
      rcases List.mem_cons.mp hy with rfl | hy2
      · exact (argminAux_le y rest).1
      · exact (argminAux_le x rest).2 y hy2
    · intro st1 hok
      exact choosePerson_seats st person x rest st1 hw hok

/-- Witness for C2 at a concrete input: Pat, who prefers both seated TAs,
gets the forcing weight -1 on both half-filled tables, exactly the
claim's formula over the non-full tables. -/
theorem c2_weight_formula_and_min_choice_witness :
    [("t1", (-1 : Rat)), ("t2", (-1 : Rat))]
      = (c2WState.tables.filter (fun t => !t.isFull)).map
          (fun t => (t.name, specWeight c2WPerson t)) :=
  (c2_weight_formula_and_min_choice c2WState c2WPerson
    [("t1", (-1 : Rat)), ("t2", (-1 : Rat))]
    (by decide) (by decide)).1

theorem addPersonToTable_cases (st : SeatState) (tname : String) (p : Person) :
    addPersonToTable st tname p = (false, st)
    ∨ ∃ t, findTable st.tables tname = some t ∧ t.hasSpace = true
        ∧ p.name ∉ st.placed
        ∧ addPersonToTable st tname p
            = (true, ⟨addToTables st.tables tname p, st.placed ++ [p.name]⟩) := by
  unfold addPersonToTable
  rcases hf : findTable st.tables tname with _ | t
  · exact Or.inl rfl
  · by_cases hc : t.hasSpace = true ∧ p.name ∉ st.placed
    · exact Or.inr ⟨t, rfl, hc.1, hc.2, if_pos hc⟩
    · exact Or.inl (if_neg hc)

theorem addToTables_char (tname : String) (p : Person) :
    ∀ (ts : List Table) (t : Table), findTable ts tname = some t →
    ∃ pre post, ts = pre ++ t :: post ∧ (∀ u ∈ pre, u.name ≠ tname)
      ∧ addToTables ts tname p
          = pre ++ { t with people := t.people ++ [p] } :: post := by
  intro ts
  induction ts with
  | nil => intro t hf; simp [findTable] at hf
  | cons u ts ih =>
    intro t hf
    by_cases h : u.name = tname
    · have hu : t = u := by
        unfold findTable at hf
        rw [List.find?_cons, show (u.name == tname) = true from beq_iff_eq.mpr h] at hf
        exact (Option.some.inj hf).symm
      subst hu
      refine ⟨[], ts, rfl, by simp, ?_⟩
      rw [addToTables, if_pos h]
      rfl
    · have hf2 : findTable ts tname = some t := by
        unfold findTable at hf ⊢
        rw [List.find?_cons, show (u.name == tname) = false from
          beq_eq_false_iff_ne.mpr h] at hf
        exact hf
      obtain ⟨pre, post, he, hpre, hadd⟩ := ih t hf2
      refine ⟨u :: pre, post, by rw [List.cons_append, ← he], ?_, ?_⟩
      · intro v hv
        rcases List.mem_cons.mp hv with rfl | hv2
        · exact h
        · exact hpre v hv2
      · rw [addToTables, if_neg h, hadd]
        rfl

theorem occupantNames_append (ts1 ts2 : List Table) :
    occupantNames (ts1 ++ ts2) = occupantNames ts1 ++ occupantNames ts2 := by
  simp [occupantNames]

theorem addToTables_occ (ts : List Table) (tname : String) (p : Person)
    (t : Table) (hf : findTable ts tname = some t) :
    (occupantNames (addToTables ts tname p)).Perm (p.name :: occupantNames ts) := by
  obtain ⟨pre, post, he, _, hadd⟩ := addToTables_char tname p ts t hf
  rw [hadd, he, occupantNames_append, occupantNames_append]
  have h1 : occupantNames ({ t with people := t.people ++ [p] } :: post)
      = t.people.map Person.name ++ (p.name :: occupantNames post) := by
    simp [occupantNames]
  have h2 : occupantNames (t :: post)
      = t.people.map Person.name ++ occupantNames post := by
    simp [occupantNames]
  rw [h1, h2]
  exact (List.Perm.append_left _ List.perm_middle).trans List.perm_middle

theorem addToTables_cap (ts : List Table) (tname : String) (p : Person)
    (t : Table) (hf : findTable ts tname = some t) (hspace : t.hasSpace = true)
    (hcap : ∀ u ∈ ts, u.seated ≤ u.capacity) :
    ∀ u ∈ addToTables ts tname p, u.seated ≤ u.capacity := by
  obtain ⟨pre, post, he, _, hadd⟩ := addToTables_char tname p ts t hf
  rw [hadd]
  intro u hu
  rcases List.mem_append.mp hu with hu2 | hu2
  · exact hcap u (he ▸ List.mem_append_left _ hu2)
  · rcases List.mem_cons.mp hu2 with rfl | hu3
    · show ({ t with people := t.people ++ [p] } : Table).people.length ≤ _
      simp only [List.length_append, List.length_cons, List.length_nil]
      have := hspace
      unfold Table.hasSpace Table.seated at this
      simp only [decide_eq_true_eq] at this
      omega
    · exact hcap u (he ▸ List.mem_append_right _ (List.mem_cons_of_mem t hu3))

theorem addToTables_names (ts : List Table) (tname : String) (p : Person) :
    (addToTables ts tname p).map Table.name = ts.map Table.name := by
  induction ts with
  | nil => rfl
  | cons u ts ih =>
    rw [addToTables]
    by_cases h : u.name = tname
    · rw [if_pos h]
      rfl
    · rw [if_neg h]
      simp only [List.map_cons]
      rw [ih]

theorem seatInv_addPersonToTable (st : SeatState) (tname : String)
    (p : Person) (st1 : SeatState) (hinv : SeatInv st)
    (hadd : addPersonToTable st tname p = (true, st1)) :
    SeatInv st1 ∧ st1.placed = st.placed ++ [p.name]
      ∧ st1.tables.map Table.name = st.tables.map Table.name := by
  rcases addPersonToTable_cases st tname p with hcase | ⟨t, hf, hspace, hnotin, hcase⟩
  · rw [hcase] at hadd
    exact absurd (congrArg Prod.fst hadd) (by simp)
  · have hst1 : st1 = ⟨addToTables st.tables tname p, st.placed ++ [p.name]⟩ := by
      have h2 := hcase.symm.trans hadd
      exact (congrArg Prod.snd h2).symm
    obtain ⟨hcap, hperm, hnd⟩ := hinv
    subst hst1
    refine ⟨⟨?_, ?_, ?_⟩, rfl, addToTables_names st.tables tname p⟩
    · exact addToTables_cap st.tables tname p t hf hspace hcap
    · exact (addToTables_occ st.tables tname p t hf).trans
        ((hperm.cons p.name).trans (List.perm_append_singleton p.name st.placed).symm)
    · simp [List.nodup_append, hnd, hnotin]

theorem seatTAs_ok (pairs : List (String × Person)) :
    ∀ (st st1 : SeatState), seatTAs st pairs = Except.ok st1 → SeatInv st →
    SeatInv st1 ∧ st1.placed = st.placed ++ pairs.map (fun pr => pr.2.name)
      ∧ st1.tables.map Table.name = st.tables.map Table.name := by
  induction pairs with
  | nil =>
    intro st st1 h hinv
    have hst : st = st1 := Except.ok.inj h
    subst hst
    exact ⟨hinv, by simp, rfl⟩
  | cons pr rest ih =>
    obtain ⟨tname, ta⟩ := pr
    intro st st1 h hinv
    rw [seatTAs] at h
    by_cases hres : (addPersonToTable st tname ta).1 = true
    · rw [if_pos hres] at h
      have hadd : addPersonToTable st tname ta
          = (true, (addPersonToTable st tname ta).2) := by
        have heta := (Prod.mk.eta (p := addPersonToTable st tname ta)).symm
        rw [hres] at heta
        exact heta
      obtain ⟨hinv1, hplaced1, hnames1⟩ :=
        seatInv_addPersonToTable st tname ta _ hinv hadd
      obtain ⟨hinv2, hplaced2, hnames2⟩ := ih _ _ h hinv1
      refine ⟨hinv2, ?_, hnames2.trans hnames1⟩
      rw [hplaced2, hplaced1]
      simp
    · rw [if_neg hres] at h
      exact absurd h (by simp)

theorem choosePerson_none_eq (st : SeatState) (person : Person)
    (hw : weightsFor st person = none) :
    choosePerson st person = Except.error ⟨zeroDivisionMsg, st.tables, st.placed⟩ := by
  unfold choosePerson
  rw [hw]

theorem choosePerson_nil_eq (st : SeatState) (person : Person)
    (hw : weightsFor st person = some []) :
    choosePerson st person = Except.error ⟨minEmptyMsg, st.tables, st.placed⟩ := by
  unfold choosePerson
  rw [hw]

theorem choosePerson_ok_effect (st : SeatState) (p : Person) (st1 : SeatState)
    (h : choosePerson st p = Except.ok st1) (hinv : SeatInv st) :
    SeatInv st1 ∧ st1.placed = st.placed ++ [p.name]
      ∧ st1.tables.map Table.name = st.tables.map Table.name := by
  rcases hw : weightsFor st p with _ | l
  · rw [choosePerson_none_eq st p hw] at h
    exact absurd h (by simp)
  · rcases l with _ | ⟨x, rest⟩
    · rw [choosePerson_nil_eq st p hw] at h
      exact absurd h (by simp)
    · exact seatInv_addPersonToTable st (argminFirst (x :: rest)).1 p st1 hinv
        (choosePerson_seats st p x rest st1 hw h)

theorem foldlM_choosePerson_ok (queue : List Person) :
    ∀ (st st1 : SeatState), queue.foldlM choosePerson st = Except.ok st1 →
    SeatInv st →
    SeatInv st1 ∧ st1.placed = st.placed ++ queue.map Person.name
      ∧ st1.tables.map Table.name = st.tables.map Table.name := by
  induction queue with
  | nil =>
    intro st st1 h hinv
    have hst : st = st1 := Except.ok.inj h
    subst hst
    exact ⟨hinv, by simp, rfl⟩
  | cons p rest ih =>
    intro st st1 h hinv
    rw [List.foldlM_cons] at h
    rcases hc : choosePerson st p with e | stm
    · rw [hc] at h
      exact Except.noConfusion h
    · rw [hc] at h
      have h2 : rest.foldlM choosePerson stm = Except.ok st1 := h
      obtain ⟨hinv1, hplaced1, hnames1⟩ := choosePerson_ok_effect st p stm hc hinv
      obtain ⟨hinv2, hplaced2, hnames2⟩ := ih stm st1 h2 hinv1
      refine ⟨hinv2, ?_, hnames2.trans hnames1⟩
      rw [hplaced2, hplaced1]
      simp

theorem createSeatingPlan_ok_inv (roster : List Person) (tables : List Table)
    (st2 : SeatState)
    (hok : createSeatingPlan roster tables = Except.ok st2) :
    ∃ closed, closePreferred roster = Except.ok closed ∧
    ∃ st1, seatTAs ⟨sortTables tables, []⟩
        (((sortTables tables).map Table.name).zip (taSeatOf roster tables closed))
          = Except.ok st1
      ∧ (queueOf roster tables closed).foldlM choosePerson st1 = Except.ok st2
      ∧ ((st2.tables.filter (fun t => decide (1 < facultyCount t))).isEmpty
          || (st2.tables.filter (fun t => facultyCount t == 0)).isEmpty) = true := by
  unfold createSeatingPlan at hok
  split at hok
  · exact absurd hok (by simp)
  · split at hok
    · exact absurd hok (by simp)
    · rename_i closed hclose
      refine ⟨closed, hclose, ?_⟩
      split at hok
      · exact absurd hok (by simp)
      · rename_i st1 hta
        refine ⟨st1, hta, ?_⟩
        split at hok
        · exact absurd hok (by simp)
        · rename_i st2b hq
          split at hok
          · split at hok
            · rename_i hfac
              have hst : st2b = st2 := Except.ok.inj hok
              rw [← hst]
              exact ⟨hq, hfac⟩
            · exact absurd hok (by simp)
          · exact absurd hok (by simp)

theorem updFrom_name (closed : List Person) (p : Person) :
    (updFrom closed p).name = p.name := by
  unfold updFrom
  rcases hf : closed.find? (fun q => q.name == p.name) with _ | q
  · rw [hf]
    rfl
  · have hq := List.find?_some hf
    rw [hf]
    simp only [Option.getD_some]
    exact beq_iff_eq.mp hq

theorem map_name_updFrom (closed l : List Person) :
    (l.map (updFrom closed)).map Person.name = l.map Person.name := by
  rw [List.map_map]
  exact List.map_congr_left (fun p _ => updFrom_name closed p)

theorem filter_four_perm (l : List Person) :
    (l.filter (fun p => p.group == some "TA")
      ++ (l.filter (fun p => p.group == some "FACULTY")
        ++ (l.filter (fun p => p.group == some "STUDENT")
          ++ l.filter (fun p => p.group == some "GUEST")))).Perm
      (l.filter isFourGroup) := by
  induction l with
  | nil => rfl
  | cons p l ih =>
    simp only [List.filter_cons]
    by_cases hTA : (p.group == some "TA") = true
    · have hg := beq_iff_eq.mp hTA
      have hF : (p.group == some "FACULTY") = false := by rw [hg]; decide
      have hS : (p.group == some "STUDENT") = false := by rw [hg]; decide
      have hG : (p.group == some "GUEST") = false := by rw [hg]; decide
      have hfour : isFourGroup p = true := by unfold isFourGroup; rw [hTA]; simp
      simp only [hTA, hF, hS, hG, hfour, if_true, if_false]
      exact ih.cons p
    · have hTA2 : (p.group == some "TA") = false := by
        cases hx : (p.group == some "TA") with
        | false => rfl
        | true => exact absurd hx hTA
      by_cases hF : (p.group == some "FACULTY") = true
      · have hg := beq_iff_eq.mp hF
        have hS : (p.group == some "STUDENT") = false := by rw [hg]; decide
        have hG : (p.group == some "GUEST") = false := by rw [hg]; decide
        have hfour : isFourGroup p = true := by unfold isFourGroup; rw [hF]; simp
        simp only [hTA2, hF, hS, hG, hfour, if_true, if_false]
        exact List.perm_middle.trans (ih.cons p)
      · have hF2 : (p.group == some "FACULTY") = false := by
          cases hx : (p.group == some "FACULTY") with
          | false => rfl
          | true => exact absurd hx hF
        by_cases hS : (p.group == some "STUDENT") = true
        · have hg := beq_iff_eq.mp hS
          have hG : (p.group == some "GUEST") = false := by rw [hg]; decide
          have hfour : isFourGroup p = true := by unfold isFourGroup; rw [hS]; simp
          simp only [hTA2, hF2, hS, hG, hfour, if_true, if_false]
          exact ((List.Perm.append_left _ List.perm_middle).trans
            List.perm_middle).trans (ih.cons p)
        · have hS2 : (p.group == some "STUDENT") = false := by
            cases hx : (p.group == some "STUDENT") with
            | false => rfl
            | true => exact absurd hx hS
          by_cases hG : (p.group == some "GUEST") = true
          · have hfour : isFourGroup p = true := by
              unfold isFourGroup; rw [hG]; simp
            simp only [hTA2, hF2, hS2, hG, hfour, if_true, if_false]
            refine (List.Perm.trans ?_ (ih.cons p))
            refine (List.Perm.append_left _ ?_).trans List.perm_middle
            exact (List.Perm.append_left _ List.perm_middle).trans List.perm_middle
          · have hG2 : (p.group == some "GUEST") = false := by
              cases hx : (p.group == some "GUEST") with
              | false => rfl
              | true => exact absurd hx hG
            have hfour : isFourGroup p = false := by
              unfold isFourGroup; rw [hTA2, hF2, hS2, hG2]; rfl
            simp only [hTA2, hF2, hS2, hG2, hfour, if_false]
            exact ih

theorem buckets_perm (active : List Person) :
    (randomizeGroup active "TA"
      ++ (randomizeGroup active "FACULTY"
        ++ (randomizeGroup active "STUDENT" ++ randomizeGroup active "GUEST"))).Perm
      (active.filter isFourGroup) := by
  refine List.Perm.trans ?_ (filter_four_perm active)
  exact (List.perm_insertionSort _ _).append
    ((List.perm_insertionSort _ _).append
      ((List.perm_insertionSort _ _).append (List.perm_insertionSort _ _)))

theorem queueOf_perm (roster : List Person) (tables : List Table)
    (closed : List Person) :
    (queueOf roster tables closed).Perm (unseated1Of roster tables closed) := by
  rw [← Multiset.coe_eq_coe]
  have hsplit : ∀ l : List Person,
      ((l.filter (fun p => !p.preferred.isEmpty) : List Person) : Multiset Person)
        + ((l.filter (fun p => p.preferred.isEmpty) : List Person) : Multiset Person)
        = (l : Multiset Person) := by
    intro l
    have hcongr : l.filter (fun p => !(!p.preferred.isEmpty))
        = l.filter (fun p => p.preferred.isEmpty) :=
      List.filter_congr (fun p _ => by simp)
    have hperm := List.filter_append_perm (fun p => !p.preferred.isEmpty) l
    rw [hcongr] at hperm
    rw [Multiset.coe_add]
    exact Multiset.coe_eq_coe.mpr hperm
  unfold queueOf unseated1Of
  simp only [List.filter_append, ← Multiset.coe_add]
  rw [← hsplit (extraTasOf roster tables closed), ← hsplit (facListOf roster closed),
    ← hsplit (stuListOf roster closed), ← hsplit (gueListOf roster closed)]
  abel

theorem taSeat_append_extra (roster : List Person) (tables : List Table)
    (closed : List Person) :
    taSeatOf roster tables closed ++ extraTasOf roster tables closed
      = taListOf roster closed := by
  unfold taSeatOf extraTasOf
  by_cases h : (sortTables tables).length < (taListOf roster closed).length
  · rw [if_pos h, if_pos h, List.take_append_drop]
  · rw [if_neg h, if_neg h, List.append_nil]

theorem taSeatOf_length_le (roster : List Person) (tables : List Table)
    (closed : List Person) :
    (taSeatOf roster tables closed).length
      ≤ ((sortTables tables).map Table.name).length := by
  rw [List.length_map]
  unfold taSeatOf
  by_cases h : (sortTables tables).length < (taListOf roster closed).length
  · rw [if_pos h]
    simp [List.length_take]
  · rw [if_neg h]
    omega

theorem zip_snd_names (roster : List Person) (tables : List Table)
    (closed : List Person) :
    ((((sortTables tables).map Table.name).zip (taSeatOf roster tables closed)).map
      (fun pr => pr.2.name)) = (taSeatOf roster tables closed).map Person.name := by
  have hcomp : (fun pr : String × Person => pr.2.name)
      = (Person.name ∘ Prod.snd) := rfl
  rw [hcomp, ← List.map_map,
    List.map_snd_zip _ _ (taSeatOf_length_le roster tables closed)]

theorem occupantNames_nil_of_empty (ts : List Table)
    (h : ∀ t ∈ ts, t.people = []) : occupantNames ts = [] := by
  induction ts with
  | nil => rfl
  | cons t ts ih =>
    have h1 : occupantNames (t :: ts) = t.people.map Person.name ++ occupantNames ts := rfl
    rw [h1, h t (List.mem_cons_self t ts), ih (fun u hu => h u (List.mem_cons_of_mem t hu))]
    rfl

/-- C1 (amended): a run that returns seats every active person whose GROUP
is one of TA, FACULTY, STUDENT, GUEST in exactly one seat; the total
occupancy equals the number of such persons; and no table exceeds its
capacity.  (The original claim spoke of all active persons; an active
person with any other GROUP value is left unseated, see the
counterexample.) -/
theorem c1_every_bucketed_person_seated_once (roster : List Person)
    (tables : List Table) (st2 : SeatState)
    (hnd : (roster.map Person.name).Nodup)
    (hemp : ∀ t ∈ tables, t.people = [])
    (hok : createSeatingPlan roster tables = Except.ok st2) :
    (∀ p ∈ activeRoster roster, isFourGroup p = true →
      seatCountAt st2.tables p.name = 1)
    ∧ totalOccupancy st2.tables = ((activeRoster roster).filter isFourGroup).length
    ∧ ∀ t ∈ st2.tables, t.seated ≤ t.capacity := by
  obtain ⟨closed, hclose, st1, hta, hq, _⟩ :=
    createSeatingPlan_ok_inv roster tables st2 hok
  have hempS : ∀ t ∈ sortTables tables, t.people = [] :=
    fun t ht => hemp t ((List.perm_insertionSort _ tables).mem_iff.mp ht)
  have hocc0 : occupantNames (sortTables tables) = [] :=
    occupantNames_nil_of_empty _ hempS
  have hinv0 : SeatInv ⟨sortTables tables, []⟩ := by
    refine ⟨?_, ?_, List.nodup_nil⟩
    · intro t ht
      show t.people.length ≤ t.capacity
      rw [hempS t ht]
      simp
    · show (occupantNames (sortTables tables)).Perm []
      rw [hocc0]
  obtain ⟨hinv1, hplaced1, hnames1⟩ := seatTAs_ok _ _ _ hta hinv0
  obtain ⟨hinv2, hplaced2, hnames2⟩ := foldlM_choosePerson_ok _ _ _ hq hinv1
  have hplaced : st2.placed
      = (taSeatOf roster tables closed).map Person.name
        ++ (queueOf roster tables closed).map Person.name := by
    rw [hplaced2, hplaced1]
    simp only [List.nil_append]
    rw [zip_snd_names]
  have hq1 : ((queueOf roster tables closed).map Person.name).Perm
      ((unseated1Of roster tables closed).map Person.name) :=
    (queueOf_perm roster tables closed).map Person.name
  have hun : (unseated1Of roster tables closed).map Person.name
      = (extraTasOf roster tables closed).map Person.name
        ++ ((facListOf roster closed).map Person.name
          ++ ((stuListOf roster closed).map Person.name
            ++ (gueListOf roster closed).map Person.name)) := by
    unfold unseated1Of
    simp [List.map_append]
  have hperm2 : st2.placed.Perm
      (((activeRoster roster).filter isFourGroup).map Person.name) := by
    rw [hplaced]
    refine ((List.Perm.append_left _ (hq1.trans (by rw [hun]))).trans ?_)
    rw [← List.append_assoc, ← List.map_append, taSeat_append_extra]
    unfold taListOf facListOf stuListOf gueListOf
    rw [map_name_updFrom, map_name_updFrom, map_name_updFrom, map_name_updFrom,
      ← List.map_append, ← List.map_append, ← List.map_append]
    exact (buckets_perm (activeRoster roster)).map Person.name
  have hnd4 : (((activeRoster roster).filter isFourGroup).map Person.name).Nodup := by
    refine hnd.sublist ?_
    exact List.Sublist.map Person.name
      ((List.filter_sublist _).trans (List.filter_sublist _))
  refine ⟨?_, ?_, hinv2.1⟩
  · intro p hp hfour
    have hmem : p.name ∈ ((activeRoster roster).filter isFourGroup).map Person.name :=
      List.mem_map_of_mem Person.name (List.mem_filter.mpr ⟨hp, hfour⟩)
    have hcount := List.count_eq_one_of_mem hnd4 hmem
    unfold seatCountAt
    rw [(hinv2.2.1.trans hperm2).count_eq p.name, hcount]
  · unfold totalOccupancy
    have hsum : (st2.tables.map Table.seated).sum
        = (occupantNames st2.tables).length := by
      unfold occupantNames
      rw [List.length_flatten, List.map_map]
      congr 1
      apply List.map_congr_left
      intro t _
      simp [Table.seated]
    rw [hsum, hinv2.2.1.length_eq, hperm2.length_eq, List.length_map]

/-- Witness for C1 (amended) at a concrete input: two TAs over two tables
are each seated exactly once. -/
theorem c1_every_bucketed_person_seated_once_witness :
    seatCountAt (seatResultState (createSeatingPlan c1WRoster c1WTables)).tables
      "Tina" = 1 := by
  have hok : createSeatingPlan c1WRoster c1WTables
      = Except.ok (seatResultState (createSeatingPlan c1WRoster c1WTables)) := by
    rfl
  refine (c1_every_bucketed_person_seated_once c1WRoster c1WTables _
    (by decide) ?_ hok).1 (mkPerson "Tina" (some "TA")) ?_ (by decide)
  · intro t ht
    fin_cases ht <;> rfl
  · exact List.mem_cons_self _ _

/-- C1 counterexample: a run that returns a result in which the active
person Olu (GROUP "OTHER") occupies no seat, and the total occupancy is
one although two persons are active: the original claim fails for active
persons outside the four bucketed GROUP values. -/
theorem c1_counterexample :
    seatResultTag (createSeatingPlan c1ExRoster c1ExTables) = "ok"
    ∧ (activeRoster c1ExRoster).length = 2
    ∧ totalOccupancy (seatResultState (createSeatingPlan c1ExRoster c1ExTables)).tables = 1
    ∧ seatCountAt (seatResultState (createSeatingPlan c1ExRoster c1ExTables)).tables
        "Olu" = 0 :=
  ⟨rfl, rfl, rfl, rfl⟩

theorem personShape_addPrefTo (roster : List Person) (t s : String) :
    (addPrefTo roster t s).map personShape = roster.map personShape := by
  unfold addPrefTo
  rw [List.map_map]
  apply List.map_congr_left
  intro p _
  show personShape
      (if p.name = t then { p with preferred := insertName s p.preferred } else p)
    = personShape p
  by_cases h : p.name = t
  · rw [if_pos h]
    rfl
  · rw [if_neg h]

theorem foldPref_shape (pname : String) (l : List String) :
    ∀ (acc r2 : List Person),
      l.foldlM
        (fun r t =>
          if rosterHas r t then Except.ok (addPrefTo r t pname)
          else Except.error keyErrorPreferredMsg) acc = Except.ok r2 →
      r2.map personShape = acc.map personShape := by
  induction l with
  | nil =>
    intro acc r2 h
    have hacc : acc = r2 := Except.ok.inj h
    rw [hacc]
  | cons t ts ih =>
    intro acc r2 h
    rw [List.foldlM_cons] at h
    by_cases hhas : rosterHas acc t = true
    · rw [if_pos hhas] at h
      have h2 : ts.foldlM
          (fun r t =>
            if rosterHas r t then Except.ok (addPrefTo r t pname)
            else Except.error keyErrorPreferredMsg) (addPrefTo acc t pname)
          = Except.ok r2 := h
      exact (ih _ _ h2).trans (personShape_addPrefTo acc t pname)
    · rw [if_neg hhas] at h
      exact Except.noConfusion h

theorem closeStep_shape (roster r2 : List Person) (n : String)
    (h : closeStep roster n = Except.ok r2) :
    r2.map personShape = roster.map personShape := by
  unfold closeStep at h
  rcases hf : roster.find? (fun p => p.name == n) with _ | p
  · rw [hf] at h
    have hacc : roster = r2 := Except.ok.inj h
    rw [hacc]
  · rw [hf] at h
    exact foldPref_shape n p.preferred roster r2 h

theorem foldSteps_shape (names : List String) :
    ∀ (acc r2 : List Person),
      names.foldlM closeStep acc = Except.ok r2 →
      r2.map personShape = acc.map personShape := by
  induction names with
  | nil =>
    intro acc r2 h
    have hacc : acc = r2 := Except.ok.inj h
    rw [hacc]
  | cons n ns ih =>
    intro acc r2 h
    rw [List.foldlM_cons] at h
    rcases hs : closeStep acc n with e | acc1
    · rw [hs] at h
      exact Except.noConfusion h
    · rw [hs] at h
      have h2 : ns.foldlM closeStep acc1 = Except.ok r2 := h
      exact (ih acc1 r2 h2).trans (closeStep_shape acc acc1 n hs)

/-- The mutual-preference closure only touches preferred sets: name, GROUP
and EXCLUDE of every person survive unchanged, in order. -/
theorem closePreferred_shape (roster closed : List Person)
    (h : closePreferred roster = Except.ok closed) :
    closed.map personShape = roster.map personShape := by
  unfold closePreferred at h
  exact foldSteps_shape (roster.map Person.name) roster closed h

/-- Looking a person up in the closed roster preserves the GROUP value,
for a duplicate-free roster whose closure kept every shape. -/
theorem updFrom_group (roster : List Person) :
    ∀ (closed : List Person),
      closed.map personShape = roster.map personShape →
      (roster.map Person.name).Nodup →
      ∀ p ∈ roster, (updFrom closed p).group = p.group := by
  induction roster with
  | nil =>
    intro closed _ _ p hp
    exact absurd hp (List.not_mem_nil p)
  | cons r rs ih =>
    intro closed hshape hnd
    cases closed with
    | nil => exact absurd hshape (by simp)
    | cons q qs =>
      simp only [List.map_cons] at hshape
      have hq : personShape q = personShape r := (List.cons.inj hshape).1
      have hqs : qs.map personShape = rs.map personShape := (List.cons.inj hshape).2
      have hqname : q.name = r.name := congrArg Prod.fst hq
      have hqgroup : q.group = r.group := congrArg (fun y => y.2.1) hq
      simp only [List.map_cons, List.nodup_cons] at hnd
      obtain ⟨hrnotin, hndtail⟩ := hnd
      have hnames : qs.map Person.name = rs.map Person.name := by
        have hmm := congrArg (List.map Prod.fst) hqs
        rw [List.map_map, List.map_map] at hmm
        exact hmm
      intro p hp
      unfold updFrom
      by_cases hqp : q.name = p.name
      · rw [List.find?_cons, show (q.name == p.name) = true from beq_iff_eq.mpr hqp]
        rcases List.mem_cons.mp hp with hpr | hp2
        · show q.group = p.group
          rw [hpr]
          exact hqgroup
        · exfalso
          exact hrnotin ((hqp.symm.trans hqname)
            ▸ List.mem_map_of_mem Person.name hp2)
      · have hbfalse : (q.name == p.name) = false := by
          cases hx : (q.name == p.name) with
          | false => rfl
          | true => exact absurd (beq_iff_eq.mp hx) hqp
        rw [List.find?_cons, hbfalse]
        rcases List.mem_cons.mp hp with hpr | hp2
        · have hnone : qs.find? (fun q => q.name == p.name) = none := by
            rw [List.find?_eq_none]
            intro x hx hbx
            apply hrnotin
            have hxp : x.name = p.name := beq_iff_eq.mp hbx
            have hpr2 : p.name = r.name := by rw [hpr]
            rw [← hpr2, ← hxp]
            exact hnames ▸ List.mem_map_of_mem Person.name hx
          show ((qs.find? (fun q => q.name == p.name)).getD p).group = p.group
          rw [hnone]
          rfl
        · have hrec := ih qs hqs hndtail p hp2
          unfold updFrom at hrec
          exact hrec

/-- Every member of a post-closure bucket carries the bucket's GROUP
value. -/
theorem bucket_group (roster closed : List Person) (g : String)
    (hshape : closed.map personShape = roster.map personShape)
    (hnd : (roster.map Person.name).Nodup) :
    ∀ p ∈ (randomizeGroup (activeRoster roster) g).map (updFrom closed),
      p.group = some g := by
  intro p hp
  obtain ⟨q, hq, rfl⟩ := List.mem_map.mp hp
  unfold randomizeGroup at hq
  have hq2 : q ∈ (activeRoster roster).filter (fun p => p.group == some g) :=
    (List.perm_insertionSort _ _).mem_iff.mp hq
  have hmem := List.mem_filter.mp hq2
  have hqr : q ∈ roster :=
    List.mem_of_mem_filter (show q ∈ roster.filter (fun p => !p.exclude) from hmem.1)
  rw [updFrom_group roster closed hshape hnd q hqr]
  exact beq_iff_eq.mp hmem.2

/-- The TAs seated in step 13 all carry GROUP "TA". -/
theorem taSeat_group (roster : List Person) (tables : List Table)
    (closed : List Person)
    (hshape : closed.map personShape = roster.map personShape)
    (hnd : (roster.map Person.name).Nodup) :
    ∀ p ∈ taSeatOf roster tables closed, (p.group == some "TA") = true := by
  intro p hp
  have hp2 : p ∈ taListOf roster closed := by
    unfold taSeatOf at hp
    split at hp
    · exact List.take_subset _ _ hp
    · exact hp
  have hp3 : p ∈ (randomizeGroup (activeRoster roster) "TA").map (updFrom closed) := hp2
  exact beq_iff_eq.mpr (bucket_group roster closed "TA" hshape hnd p hp3)

/-- When the tables suffice for the TA bucket, the processing queue holds
no TA at all: the queued buckets are FACULTY, GUEST and STUDENT, and the
extra-TA list is empty. -/
theorem queue_no_ta (roster : List Person) (tables : List Table)
    (closed : List Person)
    (hshape : closed.map personShape = roster.map personShape)
    (hnd : (roster.map Person.name).Nodup)
    (hcase : ¬ (sortTables tables).length < (taListOf roster closed).length) :
    ∀ p ∈ queueOf roster tables closed, (p.group == some "TA") = false := by
  have hextra : extraTasOf roster tables closed = [] := by
    unfold extraTasOf
    rw [if_neg hcase]
  intro p hp
  unfold queueOf at hp
  simp only [List.mem_append, List.mem_filter] at hp
  have hgroup : p.group = some "FACULTY" ∨ p.group = some "STUDENT"
      ∨ p.group = some "GUEST" := by
    rcases hp with (((⟨h, -⟩ | ⟨h, -⟩) | ⟨h, -⟩) | ⟨h, -⟩) | ⟨h, -⟩
    · unfold unseated1Of at h
      rw [hextra] at h
      simp only [List.nil_append, List.mem_append] at h
      rcases h with (h | h) | h
      · exact Or.inl (bucket_group roster closed "FACULTY" hshape hnd p h)
      · exact Or.inr (Or.inl (bucket_group roster closed "STUDENT" hshape hnd p h))
      · exact Or.inr (Or.inr (bucket_group roster closed "GUEST" hshape hnd p h))
    · exact Or.inl (bucket_group roster closed "FACULTY" hshape hnd p h)
    · exact Or.inr (Or.inr (bucket_group roster closed "GUEST" hshape hnd p h))
    · exact Or.inr (Or.inl (bucket_group roster closed "STUDENT" hshape hnd p h))
    · rw [hextra] at h
      exact absurd h (List.not_mem_nil p)
  rcases hgroup with h | h | h <;> rw [h] <;> rfl

/-- Appending one person to a table's people changes its TA count by one
exactly when the person is a TA. -/
theorem taCount_append_one (w : Table) (p : Person) :
    taCount { w with people := w.people ++ [p] }
      = taCount w + (if (p.group == some "TA") = true then 1 else 0) := by
  unfold taCount
  show (List.filter _ (w.people ++ [p])).length = _
  rw [List.filter_append, List.length_append]
  cases hp : (p.group == some "TA") with
  | true => simp [List.filter_cons, hp]
  | false => simp [List.filter_cons, hp]

/-- Every table after add_person matches a pre-add table whose TA count it
equals or exceeds by at most the added person. -/
theorem addToTables_taCount_bounds (tname : String) (p : Person) :
    ∀ (ts : List Table), ∀ u ∈ addToTables ts tname p,
      ∃ t ∈ ts, taCount t ≤ taCount u ∧
        taCount u ≤ taCount t + (if (p.group == some "TA") = true then 1 else 0) := by
  intro ts
  induction ts with
  | nil =>
    intro u hu
    exact absurd hu (by simp [addToTables])
  | cons w ts ih =>
    intro u hu
    rw [addToTables] at hu
    by_cases h : w.name = tname
    · rw [if_pos h] at hu
      rcases List.mem_cons.mp hu with rfl | hu2
      · refine ⟨w, List.mem_cons_self _ _, ?_, ?_⟩
        · rw [taCount_append_one]
          exact Nat.le_add_right _ _
        · rw [taCount_append_one]
      · exact ⟨u, List.mem_cons_of_mem _ hu2, le_refl _, Nat.le_add_right _ _⟩
    · rw [if_neg h] at hu
      rcases List.mem_cons.mp hu with rfl | hu2
      · exact ⟨u, List.mem_cons_self _ _, le_refl _, Nat.le_add_right _ _⟩
      · obtain ⟨t, ht, hle⟩ := ih u hu2
        exact ⟨t, List.mem_cons_of_mem _ ht, hle⟩

/-- A successful add_person produces the state with the person appended to
the named table and recorded as placed. -/
theorem addPersonToTable_true_tables (st : SeatState) (tname : String)
    (p : Person) (st1 : SeatState)
    (hadd : addPersonToTable st tname p = (true, st1)) :
    st1.tables = addToTables st.tables tname p := by
  rcases addPersonToTable_cases st tname p with hcase | ⟨t, _, _, _, hcase⟩
  · rw [hcase] at hadd
    exact absurd (congrArg Prod.fst hadd) (by simp)
  · have h2 := hcase.symm.trans hadd
    have h3 := congrArg Prod.snd h2
    exact (congrArg SeatState.tables h3).symm

/-- A successful choose_best_table step appends the person to one of the
current tables and leaves the rest alone. -/
theorem choosePerson_tables (st : SeatState) (p : Person) (st1 : SeatState)
    (h : choosePerson st p = Except.ok st1) :
    ∃ tname, st1.tables = addToTables st.tables tname p := by
  rcases hw : weightsFor st p with _ | l
  · rw [choosePerson_none_eq st p hw] at h
    exact absurd h (by simp)
  · rcases l with _ | ⟨x, rest⟩
    · rw [choosePerson_nil_eq st p hw] at h
      exact absurd h (by simp)
    · exact ⟨(argminFirst (x :: rest)).1,
        addPersonToTable_true_tables st _ p st1 (choosePerson_seats st p x rest st1 hw h)⟩

/-- Seating a queue with no TA in it keeps every table at one TA at
most. -/
theorem foldlM_taCount_le_one (queue : List Person) :
    (∀ p ∈ queue, (p.group == some "TA") = false) →
    ∀ (st st1 : SeatState), queue.foldlM choosePerson st = Except.ok st1 →
    (∀ t ∈ st.tables, taCount t ≤ 1) → ∀ t ∈ st1.tables, taCount t ≤ 1 := by
  induction queue with
  | nil =>
    intro _ st st1 h hle
    have hst : st = st1 := Except.ok.inj h
    exact hst ▸ hle
  | cons p rest ih =>
    intro hng st st1 h hle
    rw [List.foldlM_cons] at h
    rcases hc : choosePerson st p with e | stm
    · rw [hc] at h
      exact Except.noConfusion h
    · rw [hc] at h
      have h2 : rest.foldlM choosePerson stm = Except.ok st1 := h
      obtain ⟨tn, htab⟩ := choosePerson_tables st p stm hc
      refine ih (fun q hq => hng q (List.mem_cons_of_mem _ hq)) stm st1 h2 ?_
      intro u hu
      rw [htab] at hu
      obtain ⟨t, ht, hlow, hhigh⟩ := addToTables_taCount_bounds tn p st.tables u hu
      have hzero : (if (p.group == some "TA") = true then 1 else 0) = 0 := by
        rw [hng p (List.mem_cons_self _ _)]
        simp
      rw [hzero] at hhigh
      have := hle t ht
      omega

/-- Seating any queue never lowers a table's TA count below one once every
table holds a TA. -/
theorem foldlM_taCount_ge_one (queue : List Person) :
    ∀ (st st1 : SeatState), queue.foldlM choosePerson st = Except.ok st1 →
    (∀ t ∈ st.tables, 1 ≤ taCount t) → ∀ t ∈ st1.tables, 1 ≤ taCount t := by
  induction queue with
  | nil =>
    intro st st1 h hge
    have hst : st = st1 := Except.ok.inj h
    exact hst ▸ hge
  | cons p rest ih =>
    intro st st1 h hge
    rw [List.foldlM_cons] at h
    rcases hc : choosePerson st p with e | stm
    · rw [hc] at h
      exact Except.noConfusion h
    · rw [hc] at h
      have h2 : rest.foldlM choosePerson stm = Except.ok st1 := h
      obtain ⟨tn, htab⟩ := choosePerson_tables st p stm hc
      refine ih stm st1 h2 ?_
      intro u hu
      rw [htab] at hu
      obtain ⟨t, ht, hlow, -⟩ := addToTables_taCount_bounds tn p st.tables u hu
      exact le_trans (hge t ht) hlow

/-- The heads of a zip are the prefix of the first list cut at the second
list's length. -/
theorem map_fst_zip_eq_take {α β : Type} (A : List α) (B : List β) :
    (A.zip B).map Prod.fst = A.take B.length := by
  induction A generalizing B with
  | nil => simp
  | cons a A ih =>
    cases B with
    | nil => simp
    | cons b B => simp [ih]

/-- TA seating with table names fresh per pair keeps every table at one TA
at most. -/
theorem seatTAs_taCount_le_one (pairs : List (String × Person)) :
    ∀ (st st1 : SeatState), seatTAs st pairs = Except.ok st1 →
    (pairs.map Prod.fst).Nodup →
    (∀ t ∈ st.tables, taCount t ≤ 1) →
    (∀ t ∈ st.tables, taCount t = 1 → t.name ∉ pairs.map Prod.fst) →
    ∀ t ∈ st1.tables, taCount t ≤ 1 := by
  induction pairs with
  | nil =>
    intro st st1 h _ hle _
    have hst : st = st1 := Except.ok.inj h
    exact hst ▸ hle
  | cons pr rest ih =>
    intro st st1 h hnd hle hfresh
    obtain ⟨tn, ta⟩ := pr
    simp only [List.map_cons, List.nodup_cons] at hnd
    simp only [List.map_cons] at hfresh
    simp only [seatTAs] at h
    by_cases hres : (addPersonToTable st tn ta).1 = true
    · rw [if_pos hres] at h
      rcases addPersonToTable_cases st tn ta with hcase | ⟨t, hf, -, -, hcase⟩
      · rw [hcase] at hres
        exact absurd hres (by simp)
      · have hsnd : (addPersonToTable st tn ta).2
            = ⟨addToTables st.tables tn ta, st.placed ++ [ta.name]⟩ :=
          congrArg Prod.snd hcase
        obtain ⟨pre, post, hsplit, hprenames, haddeq⟩ :=
          addToTables_char tn ta st.tables t hf
        have hf2 : st.tables.find? (fun u => u.name == tn) = some t := hf
        have hfb := List.find?_some hf2
        have htn : t.name = tn := beq_iff_eq.mp hfb
        refine ih (addPersonToTable st tn ta).2 st1 h hnd.2 ?_ ?_
        · intro u hu
          rw [hsnd] at hu
          have hu2 : u ∈ addToTables st.tables tn ta := hu
          rw [haddeq] at hu2
          rcases List.mem_append.mp hu2 with hupre | humod
          · exact hle u (by rw [hsplit]; exact List.mem_append_left _ hupre)
          · rcases List.mem_cons.mp humod with rfl | hupost
            · rw [taCount_append_one]
              have htmem : t ∈ st.tables := by
                rw [hsplit]
                exact List.mem_append_right _ (List.mem_cons_self _ _)
              have ht0 : taCount t = 0 := by
                have hletle := hle t htmem
                by_cases h1 : taCount t = 1
                · exact absurd (Or.inl htn.symm)
                    (by
                      have := hfresh t htmem h1
                      simp only [List.mem_cons] at this
                      intro hor
                      rcases hor with h | h
                      · exact this (Or.inl h.symm)
                      · exact this (Or.inr h))
                · omega
              rw [ht0]
              split <;> omega
            · exact hle u
                (by rw [hsplit]
                    exact List.mem_append_right _ (List.mem_cons_of_mem _ hupost))
        · intro u hu h1
          rw [hsnd] at hu
          have hu2 : u ∈ addToTables st.tables tn ta := hu
          rw [haddeq] at hu2
          rcases List.mem_append.mp hu2 with hupre | humod
          · have humem : u ∈ st.tables := by
              rw [hsplit]
              exact List.mem_append_left _ hupre
            have := hfresh u humem h1
            simp only [List.mem_cons] at this
            intro hmem
            exact this (Or.inr hmem)
          · rcases List.mem_cons.mp humod with rfl | hupost
            · show ({ t with people := t.people ++ [ta] }).name ∉ rest.map Prod.fst
              show t.name ∉ rest.map Prod.fst
              rw [htn]
              exact hnd.1
            · have humem : u ∈ st.tables := by
                rw [hsplit]
                exact List.mem_append_right _ (List.mem_cons_of_mem _ hupost)
              have := hfresh u humem h1
              simp only [List.mem_cons] at this
              intro hmem
              exact this (Or.inr hmem)
    · rw [if_neg hres] at h
      exact Except.noConfusion h

/-- TA seating along duplicate-free table names with a TA per pair leaves
every table whose name was paired with at least one TA. -/
theorem seatTAs_taCount_ge_one (pairs : List (String × Person)) :
    ∀ (st st1 : SeatState), seatTAs st pairs = Except.ok st1 →
    (st.tables.map Table.name).Nodup →
    (∀ pr ∈ pairs, ((Prod.snd pr).group == some "TA") = true) →
    (∀ t ∈ st.tables, t.name ∉ pairs.map Prod.fst → 1 ≤ taCount t) →
    ∀ t ∈ st1.tables, 1 ≤ taCount t := by
  induction pairs with
  | nil =>
    intro st st1 h _ _ hinv
    have hst : st = st1 := Except.ok.inj h
    intro t ht
    exact hinv t (hst ▸ ht) (by simp)
  | cons pr rest ih =>
    intro st st1 h hndT hta hinv
    obtain ⟨tn, ta⟩ := pr
    simp only [List.map_cons] at hinv
    simp only [seatTAs] at h
    by_cases hres : (addPersonToTable st tn ta).1 = true
    · rw [if_pos hres] at h
      rcases addPersonToTable_cases st tn ta with hcase | ⟨t, hf, -, -, hcase⟩
      · rw [hcase] at hres
        exact absurd hres (by simp)
      · have hsnd : (addPersonToTable st tn ta).2
            = ⟨addToTables st.tables tn ta, st.placed ++ [ta.name]⟩ :=
          congrArg Prod.snd hcase
        obtain ⟨pre, post, hsplit, hprenames, haddeq⟩ :=
          addToTables_char tn ta st.tables t hf
        have hf2 : st.tables.find? (fun u => u.name == tn) = some t := hf
        have hfb := List.find?_some hf2
        have htn : t.name = tn := beq_iff_eq.mp hfb
        refine ih (addPersonToTable st tn ta).2 st1 h ?_
          (fun q hq => hta q (List.mem_cons_of_mem _ hq)) ?_
        · rw [hsnd]
          show ((addToTables st.tables tn ta).map Table.name).Nodup
          rw [addToTables_names]
          exact hndT
        · intro u hu hunotin
          rw [hsnd] at hu
          have hu2 : u ∈ addToTables st.tables tn ta := hu
          rw [haddeq] at hu2
          rcases List.mem_append.mp hu2 with hupre | humod
          · have humem : u ∈ st.tables := by
              rw [hsplit]
              exact List.mem_append_left _ hupre
            refine hinv u humem ?_
            simp only [List.mem_cons]
            intro hor
            rcases hor with h1 | h2
            · exact hprenames u hupre h1
            · exact hunotin h2
          · rcases List.mem_cons.mp humod with rfl | hupost
            · show 1 ≤ taCount { t with people := t.people ++ [ta] }
              rw [taCount_append_one,
                if_pos (hta (tn, ta) (List.mem_cons_self _ _))]
              omega
            · have humem : u ∈ st.tables := by
                rw [hsplit]
                exact List.mem_append_right _ (List.mem_cons_of_mem _ hupost)
              have hune : u.name ≠ tn := by
                intro heq
                have hnd2 : ((pre ++ t :: post).map Table.name).Nodup := by
                  rw [← hsplit]
                  exact hndT
                rw [List.map_append, List.map_cons] at hnd2
                have hpostnd : (t.name :: post.map Table.name).Nodup :=
                  (List.nodup_append.mp hnd2).2.1
                have hni : t.name ∉ post.map Table.name :=
                  (List.nodup_cons.mp hpostnd).1
                exact hni (htn ▸ heq ▸ List.mem_map_of_mem Table.name hupost)
              refine hinv u humem ?_
              simp only [List.mem_cons]
              intro hor
              rcases hor with h1 | h2
              · exact hune h1
              · exact hunotin h2
    · rw [if_neg hres] at h
      exact Except.noConfusion h

/-- C3: amended.  First part of the claim, strengthened to any table
count: a returned plan never pairs a facilitator-free table with a table
holding two or more facilitators, whether facilitator is read as TA (the
per-table seating of step 13) or as FACULTY (the final distribution
check).  The claim's second sentence is false and is dropped: with fewer
TAs than tables the zip of step 13 silently truncates and the run returns
a result, see the counterexample. -/
theorem c3_facilitator_distribution (roster : List Person)
    (tables : List Table) (st2 : SeatState)
    (hnd : (roster.map Person.name).Nodup)
    (hndT : (tables.map Table.name).Nodup)
    (hemp : ∀ t ∈ tables, t.people = [])
    (hok : createSeatingPlan roster tables = Except.ok st2) :
    ¬((∃ t ∈ st2.tables, taCount t = 0) ∧ (∃ u ∈ st2.tables, 2 ≤ taCount u))
    ∧ ¬((∃ t ∈ st2.tables, facultyCount t = 0)
        ∧ (∃ u ∈ st2.tables, 2 ≤ facultyCount u)) := by
  obtain ⟨closed, hclose, st1, hta, hq, hfac⟩ :=
    createSeatingPlan_ok_inv roster tables st2 hok
  have hshape := closePreferred_shape roster closed hclose
  have hempS : ∀ t ∈ sortTables tables, t.people = [] :=
    fun t ht => hemp t ((List.perm_insertionSort _ tables).mem_iff.mp ht)
  have hndS : ((sortTables tables).map Table.name).Nodup :=
    (((List.perm_insertionSort _ tables).map Table.name).nodup_iff).mpr hndT
  constructor
  · by_cases hlt :
        (sortTables tables).length < (taListOf roster closed).length
    · have hfst :
          ((((sortTables tables).map Table.name).zip
            (taSeatOf roster tables closed)).map Prod.fst)
          = (sortTables tables).map Table.name := by
        rw [map_fst_zip_eq_take]
        have hlen : (taSeatOf roster tables closed).length
            = (sortTables tables).length := by
          unfold taSeatOf
          rw [if_pos hlt, List.length_take]
          exact Nat.min_eq_left (le_of_lt hlt)
        rw [hlen,
          show (sortTables tables).length
              = ((sortTables tables).map Table.name).length from
            (List.length_map _ _).symm,
          List.take_length]
      have hge1 : ∀ t ∈ st1.tables, 1 ≤ taCount t := by
        refine seatTAs_taCount_ge_one _ _ _ hta hndS ?_ ?_
        · intro pr hpr
          obtain ⟨a, b⟩ := pr
          exact taSeat_group roster tables closed hshape hnd b
            (List.of_mem_zip hpr).2
        · intro t ht hnotin
          exfalso
          apply hnotin
          rw [hfst]
          exact List.mem_map_of_mem Table.name ht
      have hge : ∀ t ∈ st2.tables, 1 ≤ taCount t :=
        foldlM_taCount_ge_one _ st1 st2 hq hge1
      rintro ⟨⟨t, ht, h0⟩, -⟩
      have := hge t ht
      omega
    · have hle1 : ∀ t ∈ st1.tables, taCount t ≤ 1 := by
        refine seatTAs_taCount_le_one _ _ _ hta ?_ ?_ ?_
        · rw [map_fst_zip_eq_take]
          exact (List.take_sublist _ _).nodup hndS
        · intro t ht
          show taCount t ≤ 1
          unfold taCount
          rw [hempS t ht]
          simp
        · intro t ht h1
          exfalso
          have : taCount t = 0 := by
            unfold taCount
            rw [hempS t ht]
            rfl
          omega
      have hle : ∀ t ∈ st2.tables, taCount t ≤ 1 :=
        foldlM_taCount_le_one _
          (queue_no_ta roster tables closed hshape hnd hlt) st1 st2 hq hle1
      rintro ⟨-, ⟨u, hu, h2⟩⟩
      have := hle u hu
      omega
  · rw [Bool.or_eq_true] at hfac
    rintro ⟨⟨t, ht, h0⟩, ⟨u, hu, h2⟩⟩
    rcases hfac with hmulti | hzero
    · rw [List.isEmpty_iff] at hmulti
      have := List.filter_eq_nil_iff.mp hmulti u hu
      simp only [decide_eq_true_eq] at this
      omega
    · rw [List.isEmpty_iff] at hzero
      have := List.filter_eq_nil_iff.mp hzero t ht
      exact this (by rw [h0]; rfl)

/-- Witness for C3 (amended) at a concrete input: two TAs over two empty
tables produce a plan, and its tables show no zero-with-multiple TA or
FACULTY imbalance. -/
theorem c3_facilitator_distribution_witness :
    ¬((∃ t ∈ (seatResultState (createSeatingPlan c3WRoster c3WTables)).tables,
          taCount t = 0)
        ∧ (∃ u ∈ (seatResultState (createSeatingPlan c3WRoster c3WTables)).tables,
          2 ≤ taCount u))
    ∧ ¬((∃ t ∈ (seatResultState (createSeatingPlan c3WRoster c3WTables)).tables,
          facultyCount t = 0)
        ∧ (∃ u ∈ (seatResultState (createSeatingPlan c3WRoster c3WTables)).tables,
          2 ≤ facultyCount u)) := by
  have hok : createSeatingPlan c3WRoster c3WTables
      = Except.ok (seatResultState (createSeatingPlan c3WRoster c3WTables)) := by
    rfl
  refine c3_facilitator_distribution c3WRoster c3WTables _
    (by decide) (by decide) ?_ hok
  intro t ht
  fin_cases ht <;> rfl

/-- C3 counterexample: one TA, two tables.  The zip of step 13 pairs the
single TA with the first table only; the run returns a result whose second
table has no TA (and no FACULTY), so a roster with fewer facilitators than
tables does not make the run fail. -/
theorem c3_counterexample :
    seatResultTag (createSeatingPlan c3ExRoster c3ExTables) = "ok"
    ∧ (activeRoster c3ExRoster).length = 1
    ∧ (seatResultState (createSeatingPlan c3ExRoster c3ExTables)).tables.length = 2
    ∧ ((seatResultState (createSeatingPlan c3ExRoster c3ExTables)).tables.filter
        (fun t => taCount t == 0)).length = 1 :=
  ⟨rfl, rfl, rfl, rfl⟩

theorem baseScores_eq_map (mtch : Bool) (bg : String) (anchor : Person)
    (pairs : List Person) :
    baseScores mtch bg anchor pairs = pairs.map (specSelScore mtch bg anchor) := by
  cases mtch <;> simp [baseScores, specSelScore]

theorem zip_map_self {α β : Type} (f : α → β) (l : List α) :
    (l.map f).zip l = l.map (fun a => (f a, a)) := by
  induction l with
  | nil => rfl
  | cons a l ih => simp [ih]

/-- The vectorized score pipeline of group_plan.py lines 70-87, read
entrywise: each candidate's penalized score is the per-candidate formula
of the specification. -/
theorem penalizedScores_zip (mtch : Bool) (bg : String) (anchor : Person)
    (pairs : List Person) :
    (penalizedScores mtch bg anchor pairs).zip pairs
      = pairs.map (fun c => (specPenalized mtch bg anchor pairs c, c)) := by
  unfold penalizedScores
  simp only [baseScores_eq_map]
  rw [List.zip_map', List.map_map, zip_map_self]
  apply List.map_congr_left
  intro c _
  show (max 0 (specSelScore mtch bg anchor c
      - maxRat (pairs.map (specSelScore mtch bg anchor)) / 2
        * ((anchor.pairCounts c.name : Nat) : Rat) ^ 2), c)
    = (specPenalized mtch bg anchor pairs c, c)
  rfl

theorem sum_map_one {β : Type} (l : List β) :
    (l.map (fun _ => (1 : Rat))).sum = (l.length : Rat) := by
  induction l with
  | nil => simp
  | cons b l ih =>
    simp only [List.map_cons, List.sum_cons, List.length_cons, ih]
    push_cast
    ring

/-- C5: for each candidate against the current anchor, the code's
penalized score equals the specification's
`max(0, score - maxScore/2 * pairingCount^2)` with `score` the squared
skill difference under match and the skill sum otherwise; when every
penalized score is zero the distribution handed to the seeded draw is
uniform, and otherwise each candidate's draw probability is their
penalized score over the score total.  (Python floats are read as exact
rationals, and the argsort reorder is a score-stable permutation the
drawn probabilities do not depend on.) -/
theorem c5_selection_scores (mtch : Bool) (bg : String) (anchor : Person)
    (pairs : List Person) :
    (penalizedScores mtch bg anchor pairs).zip pairs
        = pairs.map (fun c => (specPenalized mtch bg anchor pairs c, c))
    ∧ ((∀ c ∈ pairs, specPenalized mtch bg anchor pairs c = 0) →
        (drawDistribution mtch bg anchor pairs).Perm
            (pairs.map (fun c => ((1 : Rat), c)))
          ∧ ∀ pr ∈ drawProbs (drawDistribution mtch bg anchor pairs),
              pr.1 = 1 / (pairs.length : Rat))
    ∧ (¬ (∀ c ∈ pairs, specPenalized mtch bg anchor pairs c = 0) →
        (drawDistribution mtch bg anchor pairs).Perm
            (pairs.map (fun c => (specPenalized mtch bg anchor pairs c, c)))
          ∧ ∀ pr ∈ drawProbs (drawDistribution mtch bg anchor pairs),
              ∃ c ∈ pairs, pr.2 = c
                ∧ pr.1 = specPenalized mtch bg anchor pairs c
                    / (pairs.map (specPenalized mtch bg anchor pairs)).sum) := by
  have hXS := penalizedScores_zip mtch bg anchor pairs
  have hperm : (sortByScore
        ((penalizedScores mtch bg anchor pairs).zip pairs)).Perm
      (pairs.map (fun c => (specPenalized mtch bg anchor pairs c, c))) :=
    hXS ▸ List.perm_insertionSort _ _
  have hcond : (sortByScore
        ((penalizedScores mtch bg anchor pairs).zip pairs)).all
      (fun a => a.1 == 0) = true
      ↔ ∀ c ∈ pairs, specPenalized mtch bg anchor pairs c = 0 := by
    constructor
    · intro hall c hc
      have hm : (specPenalized mtch bg anchor pairs c, c)
          ∈ sortByScore ((penalizedScores mtch bg anchor pairs).zip pairs) :=
        hperm.mem_iff.mpr
          (List.mem_map_of_mem (fun c => (specPenalized mtch bg anchor pairs c, c)) hc)
      exact beq_iff_eq.mp (List.all_eq_true.mp hall _ hm)
    · intro hz
      rw [List.all_eq_true]
      intro a ha
      obtain ⟨c, hc, hac⟩ := List.mem_map.mp (hperm.mem_iff.mp ha)
      rw [← hac]
      exact beq_iff_eq.mpr (hz c hc)
  refine ⟨hXS, ?_, ?_⟩
  · intro hz
    have hcondT := hcond.mpr hz
    have hdist : drawDistribution mtch bg anchor pairs
        = (sortByScore ((penalizedScores mtch bg anchor pairs).zip pairs)).map
            (fun a => ((1 : Rat), a.2)) := by
      unfold drawDistribution
      rw [if_pos hcondT]
    have hdperm : (drawDistribution mtch bg anchor pairs).Perm
        (pairs.map (fun c => ((1 : Rat), c))) := by
      rw [hdist]
      have h1 := hperm.map (fun a : Rat × Person => ((1 : Rat), a.2))
      rw [List.map_map] at h1
      exact h1.trans (by apply List.Perm.of_eq; apply List.map_congr_left; intro c _; rfl)
    refine ⟨hdperm, ?_⟩
    intro pr hpr
    obtain ⟨a, ha, hpra⟩ := List.mem_map.mp hpr
    have ha1 : a.1 = 1 := by
      rw [hdist] at ha
      obtain ⟨b, _, hba⟩ := List.mem_map.mp ha
      rw [← hba]
    have hsum : ((drawDistribution mtch bg anchor pairs).map Prod.fst).sum
        = (pairs.length : Rat) := by
      have hmp := hdperm.map Prod.fst
      rw [List.map_map] at hmp
      have : (pairs.map (Prod.fst ∘ fun c => ((1 : Rat), c)))
          = pairs.map (fun _ => (1 : Rat)) := by
        apply List.map_congr_left
        intro c _
        rfl
      rw [this] at hmp
      rw [hmp.sum_eq, sum_map_one]
    rw [← hpra]
    show a.1 / ((drawDistribution mtch bg anchor pairs).map Prod.fst).sum = _
    rw [ha1, hsum]
  · intro hz
    have hcondF : (sortByScore
          ((penalizedScores mtch bg anchor pairs).zip pairs)).all
        (fun a => a.1 == 0) = false := by
      cases hx : (sortByScore
          ((penalizedScores mtch bg anchor pairs).zip pairs)).all
          (fun a => a.1 == 0) with
      | false => rfl
      | true => exact absurd (hcond.mp hx) hz
    have hdist : drawDistribution mtch bg anchor pairs
        = sortByScore ((penalizedScores mtch bg anchor pairs).zip pairs) := by
      unfold drawDistribution
      rw [hcondF]
      simp
    have hdperm : (drawDistribution mtch bg anchor pairs).Perm
        (pairs.map (fun c => (specPenalized mtch bg anchor pairs c, c))) := by
      rw [hdist]
      exact hperm
    refine ⟨hdperm, ?_⟩
    intro pr hpr
    obtain ⟨a, ha, hpra⟩ := List.mem_map.mp hpr
    obtain ⟨c, hc, hac⟩ := List.mem_map.mp (hdperm.mem_iff.mp ha)
    have hsum : ((drawDistribution mtch bg anchor pairs).map Prod.fst).sum
        = (pairs.map (specPenalized mtch bg anchor pairs)).sum := by
      have hmp := hdperm.map Prod.fst
      rw [List.map_map] at hmp
      have : (pairs.map
            (Prod.fst ∘ fun c => (specPenalized mtch bg anchor pairs c, c)))
          = pairs.map (specPenalized mtch bg anchor pairs) := by
        apply List.map_congr_left
        intro c _
        rfl
      rw [this] at hmp
      exact hmp.sum_eq
    refine ⟨c, hc, ?_, ?_⟩
    · rw [← hpra, ← hac]
    · rw [← hpra]
      show a.1 / ((drawDistribution mtch bg anchor pairs).map Prod.fst).sum = _
      rw [hsum, ← hac]

/-- Witness for C5 at a concrete input: one candidate of skill equal to
the anchor's under match gives the all-zero score vector, and the draw
falls back to the uniform distribution. -/
theorem c5_selection_scores_witness :
    ∀ pr ∈ drawProbs (drawDistribution true "Math" c5WAnchor [c5WCand]),
      pr.1 = 1 / ((([c5WCand] : List Person).length : Nat) : Rat) := by
  refine ((c5_selection_scores true "Math" c5WAnchor [c5WCand]).2.1 ?_).2
  intro c hc
  simp only [List.mem_singleton] at hc
  subst hc
  simp [specPenalized, specSelScore, specMaxScore, maxRat, maxRatAux,
    skillOf, bgLookup, c5WCand, c5WAnchor, mkBgPerson]

theorem groupLoop_done (pick : List (Rat × Person) → Nat → List Person)
    (bg : String) (mtch : Bool) (gs fuel : Nat) (pool : List Person)
    (acc : List (List Person)) (h : pool.length < gs) :
    groupLoop pick bg mtch gs fuel pool acc = Except.ok (acc, pool) := by
  cases fuel with
  | zero =>
    unfold groupLoop
    rw [if_pos h]
  | succ n =>
    unfold groupLoop
    rw [if_pos h]

/-- C6: amended.  The no-background data error is as claimed; the
configuration error fires exactly when the people carrying the background
are outnumbered by the requested group size, not when they merely equal
it: the boundary of the claim is off by one, see the counterexample. -/
theorem c6_group_plan_errors (pick : List (Rat × Person) → Nat → List Person)
    (persons : List Person) (bg : String) (gs : Nat) (mtch : Bool) :
    ((peopleWithBackground persons bg).length = 0 →
      createGroupsBasedOnBackground pick persons bg gs mtch
        = Except.error noBackgroundMsg)
    ∧ (0 < (peopleWithBackground persons bg).length →
      (peopleWithBackground persons bg).length < gs →
      createGroupsBasedOnBackground pick persons bg gs mtch
        = Except.error groupConfigErrorMsg) := by
  constructor
  · intro h0
    unfold createGroupsBasedOnBackground
    rw [if_pos h0]
  · intro hpos hlt
    unfold createGroupsBasedOnBackground
    rw [if_neg (by omega)]
    have hlen : (sortBySkill (peopleWithBackground persons bg) bg).length
        = (peopleWithBackground persons bg).length := by
      unfold sortBySkill
      exact (List.perm_insertionSort _ _).length_eq
    rw [groupLoop_done pick bg mtch gs _ _ [] (by rw [hlen]; omega)]
    show (if ([] : List (List Person)).length
        < (sortBySkill (peopleWithBackground persons bg) bg).length then
          Except.error groupConfigErrorMsg
        else Except.ok (addLeftovers []
          (sortBySkill (peopleWithBackground persons bg) bg).reverse))
      = Except.error groupConfigErrorMsg
    rw [if_pos (by rw [List.length_nil, hlen]; exact hpos)]

/-- Witness for C6 (amended) at concrete inputs: a roster with nobody
carrying the background raises the data error, and one carrier against
group size three raises the configuration error. -/
theorem c6_group_plan_errors_witness :
    createGroupsBasedOnBackground pickFirst c6WPersons "Math" 3 true
        = Except.error noBackgroundMsg
    ∧ createGroupsBasedOnBackground pickFirst c6W2Persons "Math" 3 true
        = Except.error groupConfigErrorMsg :=
  ⟨(c6_group_plan_errors pickFirst c6WPersons "Math" 3 true).1 (by decide),
   (c6_group_plan_errors pickFirst c6W2Persons "Math" 3 true).2
     (by decide) (by decide)⟩

/-- C6 counterexample: two people carry the background and the group size
equals two, yet the run returns a grouping instead of raising the
configuration error the claim requires at equality: the while loop admits
one full group and leaves no leftover. -/
theorem c6_counterexample :
    (peopleWithBackground c6ExPersons "Math").length = 2
    ∧ createGroupsBasedOnBackground pickFirst c6ExPersons "Math" 2 true
        = Except.ok [[mkBgPerson "Bam" 0, mkBgPerson "Aba" 0]] := by
  constructor
  · decide
  · have hpen : penalizedScores true "Math" (mkBgPerson "Bam" 0)
        [mkBgPerson "Aba" 0] = [0] := by
      simp [penalizedScores, baseScores, maxRat, maxRatAux, skillOf,
        bgLookup, mkBgPerson]
    have hdist : drawDistribution true "Math" (mkBgPerson "Bam" 0)
        [mkBgPerson "Aba" 0] = [((1 : Rat), mkBgPerson "Aba" 0)] := by
      unfold drawDistribution
      rw [hpen]
      simp [sortByScore, List.insertionSort, List.orderedInsert]
    have hprobs : drawProbs [((1 : Rat), mkBgPerson "Aba" 0)]
        = [((1 : Rat), mkBgPerson "Aba" 0)] := by
      simp [drawProbs]
    have hvalid : pickValid [((1 : Rat), mkBgPerson "Aba" 0)]
        (pickFirst [((1 : Rat), mkBgPerson "Aba" 0)] 1) 1 = true := by
      decide
    have hsort : sortBySkill (peopleWithBackground c6ExPersons "Math") "Math"
        = [mkBgPerson "Aba" 0, mkBgPerson "Bam" 0] := by
      simp [sortBySkill, peopleWithBackground, c6ExPersons, mkBgPerson,
        bgLookup, List.insertionSort, List.orderedInsert, skillOf]
    unfold createGroupsBasedOnBackground
    rw [if_neg (by decide), hsort]
    have hloop : groupLoop pickFirst "Math" true 2
        ([mkBgPerson "Aba" 0, mkBgPerson "Bam" 0] : List Person).length
        [mkBgPerson "Aba" 0, mkBgPerson "Bam" 0] []
        = Except.ok ([[mkBgPerson "Bam" 0, mkBgPerson "Aba" 0]], []) := by
      show groupLoop pickFirst "Math" true 2 2
        [mkBgPerson "Aba" 0, mkBgPerson "Bam" 0] []
        = Except.ok ([[mkBgPerson "Bam" 0, mkBgPerson "Aba" 0]], [])
      unfold groupLoop
      rw [if_neg (by decide)]
      show (match dedupByName [mkBgPerson "Aba" 0] with
        | [] => Except.error emptyMaxMsg
        | p0 :: prest =>
          if pickValid (drawProbs (drawDistribution true "Math"
              (mkBgPerson "Bam" 0) (p0 :: prest)))
              (pickFirst (drawProbs (drawDistribution true "Math"
                (mkBgPerson "Bam" 0) (p0 :: prest))) 1) 1 then
            groupLoop pickFirst "Math" true 2 1
              (removeAllByName [mkBgPerson "Aba" 0]
                ((pickFirst (drawProbs (drawDistribution true "Math"
                  (mkBgPerson "Bam" 0) (p0 :: prest))) 1).map Person.name))
              ([] ++ [mkBgPerson "Bam" 0
                :: pickFirst (drawProbs (drawDistribution true "Math"
                  (mkBgPerson "Bam" 0) (p0 :: prest))) 1])
          else Except.error choiceErrorMsg)
        = Except.ok ([[mkBgPerson "Bam" 0, mkBgPerson "Aba" 0]], [])
      show (if pickValid (drawProbs (drawDistribution true "Math"
              (mkBgPerson "Bam" 0) [mkBgPerson "Aba" 0]))
              (pickFirst (drawProbs (drawDistribution true "Math"
                (mkBgPerson "Bam" 0) [mkBgPerson "Aba" 0])) 1) 1 then
            groupLoop pickFirst "Math" true 2 1
              (removeAllByName [mkBgPerson "Aba" 0]
                ((pickFirst (drawProbs (drawDistribution true "Math"
                  (mkBgPerson "Bam" 0) [mkBgPerson "Aba" 0])) 1).map Person.name))
              ([] ++ [mkBgPerson "Bam" 0
                :: pickFirst (drawProbs (drawDistribution true "Math"
                  (mkBgPerson "Bam" 0) [mkBgPerson "Aba" 0])) 1])
          else Except.error choiceErrorMsg)
        = Except.ok ([[mkBgPerson "Bam" 0, mkBgPerson "Aba" 0]], [])
      rw [hdist, hprobs, if_pos hvalid]
      show groupLoop pickFirst "Math" true 2 1
          (removeAllByName [mkBgPerson "Aba" 0] ["Aba"])
          [[mkBgPerson "Bam" 0, mkBgPerson "Aba" 0]]
        = Except.ok ([[mkBgPerson "Bam" 0, mkBgPerson "Aba" 0]], [])
      show groupLoop pickFirst "Math" true 2 1 []
          [[mkBgPerson "Bam" 0, mkBgPerson "Aba" 0]]
        = Except.ok ([[mkBgPerson "Bam" 0, mkBgPerson "Aba" 0]], [])
      exact groupLoop_done _ _ _ _ _ _ _ (by decide)
    rw [hloop]
    rfl

end Beachbums
